import Mathlib

/-
Verification of the mgpi Gaussian-process interpolator (src/mgpi/mgpi.py).

The dense engine (`Interpolator`) is embedded over exact reals: a point set
is a function `Fin n → Point d`, a kernel is a covariance function on points,
and numpy matrix algebra becomes `Matrix` algebra over `ℝ`.  Fallible numpy
steps (the positive-determinant assertion in `loglikelihood`) return
`Option`/`Except` values.  IEEE specials are modelled where a claim is about
them: `PyVal` models float comparisons in `optimize_kernel`'s rejection
check, and `Option ℝ` models the NaN that `MaternKernel.cov` produces at
zero separation.
-/

namespace Mgpi

open Matrix

/-- A point with `d` coordinates: one row of a numpy point-set array. -/
def Point (d : ℕ) : Type := Fin d → ℝ

/-- A kernel covariance function evaluated on a single pair of points, the
elementwise semantics of `Kernel.cov` on broadcast rows. -/
def KernelFun (d : ℕ) : Type := Point d → Point d → ℝ

/-- Row index recovered from a flattened pair index, as in the reshape at the
end of `Interpolator._x2cov` (`cov.reshape((n1, n2))`). -/
def unflattenRow {a b : ℕ} (m : Fin (a * b)) : Fin a :=
  ⟨m.val / b, Nat.div_lt_of_lt_mul (Nat.lt_of_lt_of_eq m.isLt (Nat.mul_comm a b))⟩

/-- Column index recovered from a flattened pair index. -/
def unflattenCol {a b : ℕ} (m : Fin (a * b)) : Fin b :=
  ⟨m.val % b, by
    have hm : m.val < a * b := m.isLt
    have hb : 0 < b := by
      rcases Nat.eq_zero_or_pos b with h | h
      · have hz : a * b = 0 := by rw [h, Nat.mul_zero]
        omega
      · exact h
    exact Nat.mod_lt _ hb⟩

/-- The flat index of the pair `(i, j)` in the row-major expansion used by
`Interpolator._x2cov` (`X1[ind*n2:(ind+1)*n2,:] = x1[ind,:]`). -/
def flatten {a b : ℕ} (i : Fin a) (j : Fin b) : Fin (a * b) :=
  ⟨i.val * b + j.val, by
    have hi := i.isLt
    have hj := j.isLt
    calc i.val * b + j.val < (i.val + 1) * b := by
          rw [Nat.add_mul, Nat.one_mul]; omega
      _ ≤ a * b := Nat.mul_le_mul_right _ (by omega)⟩

theorem unflattenRow_flatten {a b : ℕ} (i : Fin a) (j : Fin b) :
    unflattenRow (flatten i j) = i := by
  apply Fin.ext
  show (i.val * b + j.val) / b = i.val
  have hb : 0 < b := j.pos
  have h : i.val * b + j.val = j.val + b * i.val := by ring
  rw [h, Nat.add_mul_div_left _ _ hb, Nat.div_eq_of_lt j.isLt, Nat.zero_add]

theorem unflattenCol_flatten {a b : ℕ} (i : Fin a) (j : Fin b) :
    unflattenCol (flatten i j) = j := by
  apply Fin.ext
  show (i.val * b + j.val) % b = j.val
  have h : i.val * b + j.val = j.val + b * i.val := by ring
  rw [h, Nat.add_mul_mod_self_left, Nat.mod_eq_of_lt j.isLt]

/-- `Interpolator._x2cov`: expand `x1` into blocks of `n2` repeated rows and
tile `x2` `n1` times, evaluate the kernel once on the flattened parallel
arrays, and reshape the resulting vector to an `(n1, n2)` matrix. -/
def x2cov {d n1 n2 : ℕ} (kernel : KernelFun d)
    (x1 : Fin n1 → Point d) (x2 : Fin n2 → Point d) : Matrix (Fin n1) (Fin n2) ℝ :=
  let X1 : Fin (n1 * n2) → Point d := fun m => x1 (unflattenRow m)
  let X2 : Fin (n1 * n2) → Point d := fun m => x2 (unflattenCol m)
  let covFlat : Fin (n1 * n2) → ℝ := fun m => kernel (X1 m) (X2 m)
  Matrix.of fun i j => covFlat (flatten i j)

/-- The expand/evaluate/reshape pipeline of `_x2cov` produces exactly the
pairwise covariance matrix. -/
theorem x2cov_apply {d n1 n2 : ℕ} (kernel : KernelFun d)
    (x1 : Fin n1 → Point d) (x2 : Fin n2 → Point d) (i : Fin n1) (j : Fin n2) :
    x2cov kernel x1 x2 i j = kernel (x1 i) (x2 j) := by
  show kernel (x1 (unflattenRow (flatten i j))) (x2 (unflattenCol (flatten i j))) = _
  rw [unflattenRow_flatten, unflattenCol_flatten]

/-- The source-source covariance matrix as the spec describes it: entry
`(i, j)` is the kernel covariance of source points `i` and `j`.  This is the
claim-side description that `x2cov` is compared against. -/
def specSourceCov {d n : ℕ} (k : KernelFun d) (xs : Fin n → Point d) :
    Matrix (Fin n) (Fin n) ℝ :=
  Matrix.of fun i j => k (xs i) (xs j)

theorem x2cov_eq_specSourceCov {d n : ℕ} (k : KernelFun d) (xs : Fin n → Point d) :
    x2cov k xs xs = specSourceCov k xs := by
  ext i j
  rw [x2cov_apply]
  rfl

/-- The target-source covariance matrix described pairwise. -/
def specCrossCov {d m n : ℕ} (k : KernelFun d) (ts : Fin m → Point d)
    (xs : Fin n → Point d) : Matrix (Fin m) (Fin n) ℝ :=
  Matrix.of fun t j => k (ts t) (xs j)

theorem x2cov_eq_specCrossCov {d m n : ℕ} (k : KernelFun d)
    (ts : Fin m → Point d) (xs : Fin n → Point d) :
    x2cov k ts xs = specCrossCov k ts xs := by
  ext t j
  rw [x2cov_apply]
  rfl

/-- `Interpolator.compress`: invert the source-source covariance once and
apply it to the observed values, `inv(Cov(source_x, source_x)) @ source_f`. -/
noncomputable def compress {d n : ℕ} (k : KernelFun d) (xs : Fin n → Point d)
    (f : Fin n → ℝ) : Fin n → ℝ :=
  (x2cov k xs xs)⁻¹.mulVec f

/-- `Interpolator.predict`: the target-source covariance applied to a
compressed representation, `cov_tar_src @ compressed`. -/
noncomputable def predict {d m n : ℕ} (k : KernelFun d) (ts : Fin m → Point d)
    (xs : Fin n → Point d) (c : Fin n → ℝ) : Fin m → ℝ :=
  (x2cov k ts xs).mulVec c

/-- `Interpolator.condition`: the GP posterior mean and covariance,
`mean = cov_tar_src @ inv(cov_src_src) @ source_f` and
`cov = cov_tar_tar - cov_tar_src @ inv(cov_src_src) @ cov_tar_srcᵀ`
(numpy `@` associates to the left). -/
noncomputable def condition {d m n : ℕ} (k : KernelFun d) (ts : Fin m → Point d)
    (xs : Fin n → Point d) (f : Fin n → ℝ) :
    (Fin m → ℝ) × Matrix (Fin m) (Fin m) ℝ :=
  let covTarTar := x2cov k ts ts
  let covTarSrc := x2cov k ts xs
  let covSrcSrc := x2cov k xs xs
  let invCovSrcSrc := covSrcSrc⁻¹
  ((covTarSrc * invCovSrcSrc).mulVec f,
   covTarTar - covTarSrc * invCovSrcSrc * covTarSrcᵀ)

/-- `Interpolator.loglikelihood`: build the source-source covariance, take
the sign and log of its determinant (`np.linalg.slogdet`), assert that the
sign is positive, and return the Gaussian marginal log-likelihood.  `none`
models the raised `AssertionError`. -/
noncomputable def loglikelihood {d n : ℕ} (k : KernelFun d) (xs : Fin n → Point d)
    (f : Fin n → ℝ) : Option ℝ :=
  let covSrcSrc := x2cov k xs xs
  if 0 < covSrcSrc.det then
    some (-(1/2) * (Matrix.vecMul f covSrcSrc⁻¹ ⬝ᵥ f)
      - (1/2) * Real.log |covSrcSrc.det|
      - (1/2) * (n : ℝ) * Real.log (2 * Real.pi))
  else none

/-- Claim C3: `Interpolator.loglikelihood` builds the source-source
covariance K_ss, fails exactly when the sign of `det K_ss` is not positive,
and otherwise returns `-1/2 fᵀ K_ss⁻¹ f - 1/2 log det K_ss - n/2 log(2π)`. -/
theorem loglikelihood_formula {d n : ℕ} (k : KernelFun d) (xs : Fin n → Point d)
    (f : Fin n → ℝ) :
    loglikelihood k xs f =
      if 0 < (specSourceCov k xs).det then
        some (-(1/2) * (Matrix.vecMul f (specSourceCov k xs)⁻¹ ⬝ᵥ f)
          - (1/2) * Real.log ((specSourceCov k xs).det)
          - ((n : ℝ)/2) * Real.log (2 * Real.pi))
      else none := by
  show (if 0 < (x2cov k xs xs).det then _ else _) = _
  rw [x2cov_eq_specSourceCov]
  by_cases h : 0 < (specSourceCov k xs).det
  · rw [if_pos h, if_pos h, abs_of_pos h]
    congr 1
    ring
  · rw [if_neg h, if_neg h]

/-- Claim C6: on the source points themselves, `predict` applied to the
output of `compress` returns exactly the conditioned mean of `condition`
(exact arithmetic, invertible source-source covariance). -/
theorem predict_compress_eq_condition_mean {d n : ℕ} (k : KernelFun d)
    (xs : Fin n → Point d) (f : Fin n → ℝ)
    (h : IsUnit (x2cov k xs xs).det) :
    predict k xs xs (compress k xs f) = (condition k xs xs f).1 := by
  show (x2cov k xs xs).mulVec ((x2cov k xs xs)⁻¹.mulVec f)
      = (x2cov k xs xs * (x2cov k xs xs)⁻¹).mulVec f
  rw [Matrix.mulVec_mulVec]

/-- A one-point training set with the constant unit kernel, used to witness
hypotheses at a concrete input. -/
def constOneKernel : KernelFun 1 := fun _ _ => 1

/-- A single training point at the origin. -/
def onePoint : Fin 1 → Point 1 := fun _ _ => 0

theorem predict_compress_eq_condition_mean_witness :
    IsUnit (x2cov constOneKernel onePoint onePoint).det ∧
      predict constOneKernel onePoint onePoint
          (compress constOneKernel onePoint (fun _ => 1))
        = (condition constOneKernel onePoint onePoint (fun _ => 1)).1 := by
  have h : IsUnit (x2cov constOneKernel onePoint onePoint).det := by
    rw [show (x2cov constOneKernel onePoint onePoint).det
        = x2cov constOneKernel onePoint onePoint 0 0 from Matrix.det_fin_one _]
    rw [x2cov_apply]
    exact isUnit_one
  exact ⟨h, predict_compress_eq_condition_mean constOneKernel onePoint _ h⟩

/-- `WhiteNoiseKernel.cov`: `sigma**2 * np.all(x1 == x2, axis=1)`, i.e. the
exact elementwise-equality indicator scaled by `sigma²`. -/
noncomputable def whiteNoiseCov {d : ℕ} (sigma : ℝ) : KernelFun d :=
  fun x1 x2 => sigma ^ 2 * (if ∀ m, x1 m = x2 m then (1 : ℝ) else 0)

/-- Claim C8 (amended): the white-noise covariance entry is `sigma²` exactly
when the two points agree elementwise and `0` otherwise; when both point
sets are one collection of pairwise-distinct points it contributes only to
the diagonal.  (For a collection with duplicated points the kernel also
contributes off the diagonal; see the counterexample.) -/
theorem whiteNoise_indicator {d : ℕ} (sigma : ℝ) :
    (∀ {n1 n2 : ℕ} (x1 : Fin n1 → Point d) (x2 : Fin n2 → Point d) i j,
      (x1 i = x2 j → x2cov (whiteNoiseCov sigma) x1 x2 i j = sigma ^ 2)
      ∧ (x1 i ≠ x2 j → x2cov (whiteNoiseCov sigma) x1 x2 i j = 0))
    ∧ (∀ {n : ℕ} (xs : Fin n → Point d) (i j : Fin n), xs i ≠ xs j →
      x2cov (whiteNoiseCov sigma) xs xs i j = 0) := by
  have key : ∀ {n1 n2 : ℕ} (x1 : Fin n1 → Point d) (x2 : Fin n2 → Point d) i j,
      (x1 i = x2 j → x2cov (whiteNoiseCov sigma) x1 x2 i j = sigma ^ 2)
      ∧ (x1 i ≠ x2 j → x2cov (whiteNoiseCov sigma) x1 x2 i j = 0) := by
    intro n1 n2 x1 x2 i j
    rw [x2cov_apply]
    show (_ → sigma ^ 2 * (if ∀ m, x1 i m = x2 j m then (1 : ℝ) else 0) = _)
      ∧ (_ → sigma ^ 2 * (if ∀ m, x1 i m = x2 j m then (1 : ℝ) else 0) = _)
    have hiff : (∀ m, x1 i m = x2 j m) ↔ x1 i = x2 j := funext_iff.symm
    constructor
    · intro h
      rw [if_pos (hiff.mpr h), mul_one]
    · intro h
      rw [if_neg (fun hh => h (hiff.mp hh)), mul_zero]
  refine ⟨key, ?_⟩
  intro n xs i j hne
  exact (key xs xs i j).2 hne

/-- Two coincident training points (a collection with a duplicate). -/
def dupPoints : Fin 2 → Point 1 := fun _ _ => 0

/-- Two distinct training points. -/
def twoPoints : Fin 2 → Point 1 := fun i _ => (i.val : ℝ)

/-- Claim C8 counterexample: with a duplicated point in the collection, the
white-noise kernel contributes `sigma² = 1 ≠ 0` strictly off the diagonal,
so "contributes only to the diagonal when both point sets are the same
collection" fails as stated. -/
theorem whiteNoise_offdiag_counterexample :
    (0 : Fin 2) ≠ 1 ∧ x2cov (whiteNoiseCov 1) dupPoints dupPoints 0 1 = 1 := by
  constructor
  · decide
  · rw [x2cov_apply]
    show (1 : ℝ) ^ 2 * (if ∀ m, dupPoints 0 m = dupPoints 1 m then (1 : ℝ) else 0) = 1
    rw [if_pos (show ∀ m : Fin 1, dupPoints 0 m = dupPoints 1 m from fun _ => rfl)]
    norm_num

theorem whiteNoise_indicator_witness :
    twoPoints 0 ≠ twoPoints 1 ∧
      x2cov (whiteNoiseCov 1) twoPoints twoPoints 0 1 = 0 := by
  have hne : twoPoints 0 ≠ twoPoints 1 := by
    intro h
    have h0 := congrFun h 0
    show False
    have : ((0 : Fin 2).val : ℝ) = ((1 : Fin 2).val : ℝ) := h0
    norm_num at this
  exact ⟨hne, (whiteNoise_indicator 1).2 twoPoints 0 1 hne⟩

/-- `MaternKernel.cov`, with scipy's `gamma` and `kv` abstracted as function
parameters.  The scaled distance is
`diff = (2*order)**0.5 * (Σ_d ((x1_d - x2_d)/length_d)²)**0.5`.  At
`diff = 0` the source evaluates `diff**order * kv(order, 0) = 0 * inf`,
which is IEEE NaN: that outcome is modelled as `none`; for `diff ≠ 0` the
real value is returned.  There is no special case for `diff ≈ 0` in the
source. -/
noncomputable def maternCov {d : ℕ} (besselK : ℝ → ℝ → ℝ) (gammaFn : ℝ → ℝ)
    (order sigma : ℝ) (lengths : Fin d → ℝ) (x1 x2 : Point d) : Option ℝ :=
  let diff : ℝ :=
    (2 * order) ^ ((1 : ℝ)/2) * (∑ m, (x1 m - x2 m) ^ 2 / (lengths m) ^ 2) ^ ((1 : ℝ)/2)
  if diff = 0 then none
  else some (sigma ^ 2 * (2 ^ (1 - order) / gammaFn order) * diff ^ order * besselK order diff)

/-- Claim C4: at identical input points the scaled distance is exactly zero
and `MaternKernel.cov` evaluates `0**order * kv(order, 0) = 0 * inf = NaN`
(modelled `none`) for every order, sigma and length vector — the
implementation does not special-case `r ≈ 0`, so the entry is NaN, not
`sigma²`. -/
theorem maternCov_at_equal_points {d : ℕ} (besselK : ℝ → ℝ → ℝ) (gammaFn : ℝ → ℝ)
    (order sigma : ℝ) (lengths : Fin d → ℝ) (x : Point d) :
    maternCov besselK gammaFn order sigma lengths x x = none := by
  have hdiff : (2 * order) ^ ((1 : ℝ)/2)
      * (∑ m, (x m - x m) ^ 2 / (lengths m) ^ 2) ^ ((1 : ℝ)/2) = 0 := by
    have hsum : (∑ m, (x m - x m) ^ 2 / (lengths m) ^ 2) = (0 : ℝ) := by
      apply Finset.sum_eq_zero
      intro m _
      rw [sub_self, zero_pow (by norm_num), zero_div]
    rw [hsum, Real.zero_rpow (by norm_num), mul_zero]
  show (if _ = (0:ℝ) then _ else _) = _
  rw [if_pos hdiff]

theorem x2cov_comp_perm {d n : ℕ} (k : KernelFun d) (xs : Fin n → Point d)
    (σ : Equiv.Perm (Fin n)) :
    x2cov k (xs ∘ σ) (xs ∘ σ) = (x2cov k xs xs).submatrix σ σ := by
  ext i j
  rw [Matrix.submatrix_apply, x2cov_apply, x2cov_apply]
  rfl

/-- The marginal log-likelihood is invariant under a simultaneous
permutation of the source points and values (general helper form). -/
theorem loglikelihood_comp_perm {d n : ℕ} (k : KernelFun d) (xs : Fin n → Point d)
    (f : Fin n → ℝ) (σ : Equiv.Perm (Fin n)) :
    loglikelihood k (xs ∘ σ) (f ∘ σ) = loglikelihood k xs f := by
  have hK := x2cov_comp_perm k xs σ
  have hdet : (x2cov k (xs ∘ σ) (xs ∘ σ)).det = (x2cov k xs xs).det := by
    rw [hK]
    exact Matrix.det_submatrix_equiv_self σ _
  have hquad : Matrix.vecMul (f ∘ σ) (x2cov k (xs ∘ σ) (xs ∘ σ))⁻¹ ⬝ᵥ (f ∘ σ)
      = Matrix.vecMul f (x2cov k xs xs)⁻¹ ⬝ᵥ f := by
    rw [hK, Matrix.inv_submatrix_equiv]
    simp only [Matrix.dotProduct, Matrix.vecMul, Matrix.submatrix_apply,
      Function.comp_apply]
    have inner : ∀ j, (∑ i, f (σ i) * (x2cov k xs xs)⁻¹ (σ i) j)
        = ∑ i, f i * (x2cov k xs xs)⁻¹ i j := by
      intro j
      exact Equiv.sum_comp σ (fun i => f i * (x2cov k xs xs)⁻¹ i j)
    calc (∑ j, (∑ i, f (σ i) * (x2cov k xs xs)⁻¹ (σ i) (σ j)) * f (σ j))
        = ∑ j, (∑ i, f i * (x2cov k xs xs)⁻¹ i (σ j)) * f (σ j) := by
          apply Finset.sum_congr rfl
          intro j _
          rw [inner (σ j)]
      _ = ∑ j, (∑ i, f i * (x2cov k xs xs)⁻¹ i j) * f j :=
          Equiv.sum_comp σ (fun j => (∑ i, f i * (x2cov k xs xs)⁻¹ i j) * f j)
  show (if 0 < (x2cov k (xs ∘ ⇑σ) (xs ∘ ⇑σ)).det then
      some (-(1/2) * (Matrix.vecMul (f ∘ ⇑σ) (x2cov k (xs ∘ ⇑σ) (xs ∘ ⇑σ))⁻¹ ⬝ᵥ (f ∘ ⇑σ))
        - (1/2) * Real.log |(x2cov k (xs ∘ ⇑σ) (xs ∘ ⇑σ)).det|
        - (1/2) * (n : ℝ) * Real.log (2 * Real.pi))
    else none) = loglikelihood k xs f
  rw [hquad, hdet]
  rfl

/-- Claim C9: `Interpolator.loglikelihood` returns the same value (in exact
arithmetic) under every simultaneous permutation of `source_x` and
`source_f`. -/
theorem loglikelihood_perm_invariant {d n : ℕ} (k : KernelFun d)
    (xs : Fin n → Point d) (f : Fin n → ℝ) (σ : Equiv.Perm (Fin n)) :
    loglikelihood k (xs ∘ σ) (f ∘ σ) = loglikelihood k xs f :=
  loglikelihood_comp_perm k xs f σ

/-- Python call binding: a `TypeError` for a duplicated argument occurs when
a keyword argument's parameter slot was already filled positionally. -/
def pyCallHasMultipleValues (paramNames : List String) (numPositional : ℕ)
    (keywordNames : List String) : Bool :=
  keywordNames.any fun kw =>
    match paramNames.indexOf? kw with
    | some i => decide (i < numPositional)
    | none => false

/-- The parameter list of `Interpolator._rvs_from_conditioned(mean, cov,
size=1)` — written without a `self` parameter in the source. -/
def rvsHelperParams : List String := ["mean", "cov", "size"]

/-- `Interpolator.rvs`: conditions on the sources, then calls the bound
method `self._rvs_from_conditioned(mean, cov, size=size)`, which passes
`self` plus two positional arguments into the three parameters
`(mean, cov, size)` together with the keyword `size`.  The draws that
`np.random.multivariate_normal` would produce are supplied as `rands`. -/
noncomputable def rvs {d m n : ℕ} (k : KernelFun d) (ts : Fin m → Point d)
    (xs : Fin n → Point d) (f : Fin n → ℝ) (size : ℕ)
    (rands : Fin size → Fin m → ℝ) : Except String (Fin size → Fin m → ℝ) :=
  let mc := condition k ts xs f
  if pyCallHasMultipleValues rvsHelperParams 3 ["size"] then
    Except.error "TypeError: got multiple values for argument size"
  else
    let scales : Fin m → ℝ := fun i => (mc.2 i i) ^ ((1 : ℝ)/2)
    Except.ok (fun s i => mc.1 i + rands s i * scales i)

/-- Claim C2 (refuting theorem): every call of `Interpolator.rvs` raises a
`TypeError` — the helper `_rvs_from_conditioned` has no `self` parameter, so
the bound call fills `size` positionally with the covariance and again by
keyword — instead of returning `n` joint draws. -/
theorem rvs_always_raises {d m n : ℕ} (k : KernelFun d) (ts : Fin m → Point d)
    (xs : Fin n → Point d) (f : Fin n → ℝ) (size : ℕ)
    (rands : Fin size → Fin m → ℝ) :
    rvs k ts xs f size rands
      = Except.error "TypeError: got multiple values for argument size" := by
  have hb : pyCallHasMultipleValues rvsHelperParams 3 ["size"] = true := by decide
  unfold rvs
  rw [hb]
  rfl

/-- A Python kernel object's mutable state: the `_params` name tuple and the
`params` value array. -/
structure PyKernel (ν α : Type) where
  names : List ν
  params : List α

/-- Python's `list.index`: the position of the first occurrence, `none`
standing for the raised `ValueError`. -/
def pyIndex {ν : Type} [DecidableEq ν] : List ν → ν → Option ℕ
  | [], _ => none
  | x :: xs, a => if x = a then some 0 else (pyIndex xs a).map Nat.succ

/-- One step of `Kernel.update`: `self.params[self._params.index(key)] = val`,
with an unknown name warned about and ignored (the `except ValueError`
branch). -/
def kernelUpdate1 {ν α : Type} [DecidableEq ν] (κ : PyKernel ν α) (key : ν)
    (val : α) : PyKernel ν α :=
  match pyIndex κ.names key with
  | some i => ⟨κ.names, κ.params.set i val⟩
  | none => κ

/-- `Kernel.update(**params)`: fold the single-name update over the
key/value pairs. -/
def kernelUpdate {ν α : Type} [DecidableEq ν] (κ : PyKernel ν α)
    (kvs : List (ν × α)) : PyKernel ν α :=
  kvs.foldl (fun acc kv => kernelUpdate1 acc kv.1 kv.2) κ

theorem pyIndex_cons {ν : Type} [DecidableEq ν] (x : ν) (xs : List ν) (a : ν) :
    pyIndex (x :: xs) a
      = if x = a then some 0 else (pyIndex xs a).map Nat.succ := rfl

theorem kernelUpdate1_names {ν α : Type} [DecidableEq ν] (κ : PyKernel ν α)
    (key : ν) (val : α) : (kernelUpdate1 κ key val).names = κ.names := by
  unfold kernelUpdate1
  cases pyIndex κ.names key <;> rfl

theorem kernelUpdate1_eta {ν α : Type} [DecidableEq ν] (ns : List ν)
    (qs : List α) (a : ν) (b : α) :
    kernelUpdate1 (⟨ns, qs⟩ : PyKernel ν α) a b
      = ⟨ns, (kernelUpdate1 (⟨ns, qs⟩ : PyKernel ν α) a b).params⟩ := by
  have hn := kernelUpdate1_names (⟨ns, qs⟩ : PyKernel ν α) a b
  cases hu : kernelUpdate1 (⟨ns, qs⟩ : PyKernel ν α) a b with
  | mk u v =>
    rw [hu] at hn
    have hn2 : u = ns := hn
    rw [hn2]

theorem kernelUpdate1_cons_ne {ν α : Type} [DecidableEq ν] (x : ν)
    (ns : List ν) (q : α) (qs : List α) (a : ν) (b : α) (hne : x ≠ a) :
    kernelUpdate1 (⟨x :: ns, q :: qs⟩ : PyKernel ν α) a b
      = ⟨x :: ns, q :: (kernelUpdate1 (⟨ns, qs⟩ : PyKernel ν α) a b).params⟩ := by
  unfold kernelUpdate1
  show (match pyIndex (x :: ns) a with
    | some i => (⟨x :: ns, (q :: qs).set i b⟩ : PyKernel ν α)
    | none => ⟨x :: ns, q :: qs⟩) = _
  rw [pyIndex_cons, if_neg hne]
  cases hpi : pyIndex ns a with
  | none => rfl
  | some i => rfl

theorem kernelUpdate_cons_notmem {ν α : Type} [DecidableEq ν] (x : ν)
    (ns : List ν) (q : α) (qs : List α) (kvs : List (ν × α))
    (h : ∀ kv ∈ kvs, kv.1 ≠ x) :
    kernelUpdate ⟨x :: ns, q :: qs⟩ kvs
      = ⟨x :: ns, q :: (kernelUpdate ⟨ns, qs⟩ kvs).params⟩ := by
  induction kvs generalizing q qs with
  | nil => rfl
  | cons kv rest ih =>
    have hkv : kv.1 ≠ x := h kv (List.mem_cons_self _ _)
    have hrest : ∀ p ∈ rest, p.1 ≠ x := fun p hp => h p (List.mem_cons_of_mem _ hp)
    show kernelUpdate (kernelUpdate1 ⟨x :: ns, q :: qs⟩ kv.1 kv.2) rest = _
    rw [kernelUpdate1_cons_ne x ns q qs kv.1 kv.2 (fun hh => hkv hh.symm)]
    rw [ih q ((kernelUpdate1 (⟨ns, qs⟩ : PyKernel ν α) kv.1 kv.2).params) hrest]
    show _ = (⟨x :: ns,
      q :: (kernelUpdate (kernelUpdate1 (⟨ns, qs⟩ : PyKernel ν α) kv.1 kv.2) rest).params⟩
        : PyKernel ν α)
    rw [← kernelUpdate1_eta]

/-- Updating a kernel with `zip(self._params, params)` (distinct names,
matching lengths) replaces the whole parameter vector. -/
theorem kernelUpdate_zip {ν α : Type} [DecidableEq ν] (names : List ν)
    (hnd : names.Nodup) (oldp newp : List α)
    (h1 : oldp.length = names.length) (h2 : newp.length = names.length) :
    kernelUpdate ⟨names, oldp⟩ (names.zip newp) = ⟨names, newp⟩ := by
  induction names generalizing oldp newp with
  | nil =>
    have ho : oldp = [] := List.length_eq_zero.mp h1
    have hn : newp = [] := List.length_eq_zero.mp h2
    rw [ho, hn]
    rfl
  | cons x ns ih =>
    rcases oldp with _ | ⟨q, qs⟩
    · exact absurd h1 (by simp)
    rcases newp with _ | ⟨p, ps⟩
    · exact absurd h2 (by simp)
    have hx : x ∉ ns := (List.nodup_cons.mp hnd).1
    have hnd2 : ns.Nodup := (List.nodup_cons.mp hnd).2
    show kernelUpdate (kernelUpdate1 ⟨x :: ns, q :: qs⟩ x p) (ns.zip ps) = _
    have hstep : kernelUpdate1 (⟨x :: ns, q :: qs⟩ : PyKernel ν α) x p
        = ⟨x :: ns, p :: qs⟩ := by
      unfold kernelUpdate1
      show (match pyIndex (x :: ns) x with
        | some i => (⟨x :: ns, (q :: qs).set i p⟩ : PyKernel ν α)
        | none => ⟨x :: ns, q :: qs⟩) = _
      rw [show pyIndex (x :: ns) x = some 0 from by rw [pyIndex_cons, if_pos rfl]]
      rfl
    rw [hstep]
    have hkeys : ∀ kv ∈ ns.zip ps, kv.1 ≠ x := by
      intro kv hkv hkx
      exact hx (hkx ▸ (List.of_mem_zip hkv).1)
    rw [kernelUpdate_cons_notmem x ns p qs (ns.zip ps) hkeys]
    have hih := ih hnd2 qs ps (by simpa using h1) (by simpa using h2)
    rw [hih]

/-- The log-probability target built by `Interpolator._instantiate_sampler`:
it first mutates the shared kernel via `update`, then checks positivity,
returning the log-likelihood plus log-prior or `-inf` (`⊥ : EReal`). -/
noncomputable def samplerTarget (κ : PyKernel String ℝ) (params : List ℝ)
    (loglike : PyKernel String ℝ → ℝ) (logprior : List ℝ → ℝ) :
    PyKernel String ℝ × EReal :=
  let κ2 := kernelUpdate κ (κ.names.zip params)
  if ∀ p ∈ params, 0 < p then (κ2, ((loglike κ2 + logprior params : ℝ) : EReal))
  else (κ2, ⊥)

/-- Claim C10: the sampler's target mutates the kernel to the candidate
before the positivity check, so a candidate with a non-positive entry both
returns `-inf` and leaves the kernel holding the rejected parameters. -/
theorem samplerTarget_mutates_before_check (κ : PyKernel String ℝ)
    (params : List ℝ) (loglike : PyKernel String ℝ → ℝ)
    (logprior : List ℝ → ℝ) (h1 : κ.params.length = κ.names.length)
    (h2 : params.length = κ.names.length) (hnd : κ.names.Nodup)
    (hbad : ∃ p ∈ params, ¬ 0 < p) :
    samplerTarget κ params loglike logprior = (⟨κ.names, params⟩, ⊥) := by
  obtain ⟨names, oldp⟩ := κ
  have hup : kernelUpdate ⟨names, oldp⟩ (names.zip params) = ⟨names, params⟩ :=
    kernelUpdate_zip names hnd oldp params h1 h2
  unfold samplerTarget
  rw [hup, if_neg]
  intro hall
  obtain ⟨p, hp, hnp⟩ := hbad
  exact hnp (hall p hp)

theorem samplerTarget_mutates_before_check_witness :
    samplerTarget ⟨["sigma"], [1]⟩ [0] (fun _ => 0) (fun _ => 0)
      = (⟨["sigma"], [0]⟩, ⊥) := by
  apply samplerTarget_mutates_before_check
  · rfl
  · rfl
  · simp
  · exact ⟨0, by simp, by norm_num⟩

/-- An IEEE float value as seen by the comparisons in `optimize_kernel`'s
target: a finite value (exact payload), `inf`, `-inf`, or NaN. -/
inductive PyVal where
  | num (q : ℚ)
  | pinf
  | ninf
  | nan
deriving DecidableEq

/-- IEEE `<=` ordering: any comparison with NaN is false. -/
def pyLe : PyVal → PyVal → Bool
  | .nan, _ => false
  | _, .nan => false
  | .ninf, _ => true
  | _, .pinf => true
  | .pinf, _ => false
  | _, .ninf => false
  | .num a, .num b => decide (a ≤ b)

/-- IEEE equality: NaN compares unequal to everything, itself included. -/
def pyEq : PyVal → PyVal → Bool
  | .nan, _ => false
  | _, .nan => false
  | .pinf, .pinf => true
  | .ninf, .ninf => true
  | .pinf, _ => false
  | _, .pinf => false
  | .ninf, _ => false
  | _, .ninf => false
  | .num a, .num b => decide (a = b)

/-- IEEE `!=`. -/
def pyNe (a b : PyVal) : Bool := !(pyEq a b)

/-- IEEE negation. -/
def pyNeg : PyVal → PyVal
  | .num q => .num (-q)
  | .pinf => .ninf
  | .ninf => .pinf
  | .nan => .nan

/-- IEEE addition (the cases reachable here). -/
def pyAdd : PyVal → PyVal → PyVal
  | .nan, _ => .nan
  | _, .nan => .nan
  | .pinf, .ninf => .nan
  | .ninf, .pinf => .nan
  | .pinf, _ => .pinf
  | _, .pinf => .pinf
  | .ninf, _ => .ninf
  | _, .ninf => .ninf
  | .num a, .num b => .num (a + b)

/-- A float is finite when it is neither infinite nor NaN. -/
def pyFinite : PyVal → Bool
  | .num _ => true
  | _ => false

/-- The candidate-rejection check in `optimize_kernel.target`:
`any(params <= 0) or any(params != params)`. -/
def optimizeRejects (params : List PyVal) : Bool :=
  (params.any fun p => pyLe p (.num 0)) || (params.any fun p => pyNe p p)

/-- The target function minimized by `Interpolator.optimize_kernel`: reject
first (returning `np.infty`, i.e. `-inf` for the maximized objective) and
only otherwise update the kernel and evaluate the likelihood plus prior,
negated for the minimizer. -/
def optimizeTarget (κ : PyKernel String PyVal) (params : List PyVal)
    (loglike : PyKernel String PyVal → PyVal)
    (logprior : List PyVal → PyVal) : PyKernel String PyVal × PyVal :=
  if optimizeRejects params then (κ, .pinf)
  else
    let κ2 := kernelUpdate κ (κ.names.zip params)
    (κ2, pyNeg (pyAdd (loglike κ2) (logprior params)))

/-- The tail of `Interpolator.optimize_kernel`: update the shared kernel to
the optimizer's result and return `params_dict`, the name-to-value zip. -/
def optimizeFinish {α : Type} (κ : PyKernel String α) (x : List α) :
    PyKernel String α × List (String × α) :=
  let κ2 := kernelUpdate κ (κ.names.zip x)
  (κ2, κ2.names.zip κ2.params)

theorem pyNe_self_iff (p : PyVal) : pyNe p p = true ↔ p = .nan := by
  cases p <;> simp [pyNe, pyEq]

/-- Claim C5 (amended): the rejection check in `optimize_kernel.target`
fires exactly on a candidate with a non-positive (IEEE `<= 0`) or NaN
entry — a `+inf` entry is not rejected; a rejected candidate gets the
infinite objective with the kernel untouched and the likelihood never
evaluated; on success the method sets the kernel's parameters to the
optimizer's result and returns them as a name-to-value mapping. -/
theorem optimizeTarget_spec :
    (∀ params : List PyVal,
      optimizeRejects params = true
        ↔ ∃ p ∈ params, pyLe p (.num 0) = true ∨ p = .nan)
    ∧ (∀ (κ : PyKernel String PyVal) (params : List PyVal) loglike logprior,
      optimizeRejects params = true →
        optimizeTarget κ params loglike logprior = (κ, .pinf))
    ∧ (∀ (names : List String) (oldp newp : List PyVal), names.Nodup →
        oldp.length = names.length → newp.length = names.length →
        optimizeFinish ⟨names, oldp⟩ newp = (⟨names, newp⟩, names.zip newp)) := by
  refine ⟨?_, ?_, ?_⟩
  · intro params
    show ((params.any fun p => pyLe p (.num 0)) || (params.any fun p => pyNe p p)) = true ↔ _
    rw [Bool.or_eq_true, List.any_eq_true, List.any_eq_true]
    constructor
    · rintro (⟨p, hp, hle⟩ | ⟨p, hp, hne⟩)
      · exact ⟨p, hp, Or.inl hle⟩
      · exact ⟨p, hp, Or.inr ((pyNe_self_iff p).mp hne)⟩
    · rintro ⟨p, hp, hle | hnan⟩
      · exact Or.inl ⟨p, hp, hle⟩
      · exact Or.inr ⟨p, hp, (pyNe_self_iff p).mpr hnan⟩
  · intro κ params loglike logprior hrej
    unfold optimizeTarget
    rw [if_pos hrej]
  · intro names oldp newp hnd h1 h2
    unfold optimizeFinish
    rw [kernelUpdate_zip names hnd oldp newp h1 h2]

theorem optimizeTarget_spec_witness :
    optimizeRejects [PyVal.num 0] = true ∧
      optimizeTarget ⟨["sigma"], [PyVal.num 1]⟩ [PyVal.num 0]
          (fun _ => PyVal.num 0) (fun _ => PyVal.num 0)
        = (⟨["sigma"], [PyVal.num 1]⟩, PyVal.pinf) ∧
      optimizeFinish ⟨["sigma"], [PyVal.num 1]⟩ [PyVal.num 2]
        = (⟨["sigma"], [PyVal.num 2]⟩, [("sigma", PyVal.num 2)]) := by
  refine ⟨?_, ?_, ?_⟩
  · exact (optimizeTarget_spec.1 [PyVal.num 0]).mpr ⟨PyVal.num 0, by simp, Or.inl (by decide)⟩
  · exact optimizeTarget_spec.2.1 _ _ _ _ (by decide)
  · exact optimizeTarget_spec.2.2 ["sigma"] [PyVal.num 1] [PyVal.num 2]
      (by simp) rfl rfl

/-- Claim C5 counterexample: a `+inf` parameter entry is non-finite yet
passes the check `any(params <= 0) or any(params != params)`, so the target
proceeds to mutate the kernel and evaluate the likelihood at it instead of
rejecting it. -/
theorem optimize_inf_not_rejected :
    pyFinite PyVal.pinf = false ∧ optimizeRejects [PyVal.pinf] = false ∧
      (optimizeTarget ⟨["sigma"], [PyVal.num 1]⟩ [PyVal.pinf]
          (fun _ => PyVal.num 0) (fun _ => PyVal.num 0)).1.params
        = [PyVal.pinf] := by
  refine ⟨rfl, by decide, ?_⟩
  decide

/-- Python's `name.split('_')`: split on every underscore, keeping empty
segments; the result is always non-empty. -/
def pySplitUnderscore : List Char → List (List Char)
  | [] => [[]]
  | c :: rest =>
    if c = '_' then [] :: pySplitUnderscore rest
    else
      match pySplitUnderscore rest with
      | [] => [[c]]
      | s :: ss => (c :: s) :: ss

theorem pySplit_cons (c : Char) (rest : List Char) :
    pySplitUnderscore (c :: rest)
      = if c = '_' then [] :: pySplitUnderscore rest
        else match pySplitUnderscore rest with
          | [] => [[c]]
          | s :: ss => (c :: s) :: ss := rfl

/-- Python's `'_'.join(parts)`. -/
def pyJoinUnderscore : List (List Char) → List Char
  | [] => []
  | [s] => s
  | s :: ss => s ++ '_' :: pyJoinUnderscore ss

theorem pySplit_ne_nil (l : List Char) : pySplitUnderscore l ≠ [] := by
  cases l with
  | nil => simp [pySplitUnderscore]
  | cons c rest =>
    rw [pySplit_cons]
    by_cases h : c = '_'
    · rw [if_pos h]; simp
    · rw [if_neg h]
      cases pySplitUnderscore rest <;> simp

theorem pySplit_append (a b : List Char) :
    pySplitUnderscore (a ++ '_' :: b)
      = pySplitUnderscore a ++ pySplitUnderscore b := by
  induction a with
  | nil =>
    show pySplitUnderscore ('_' :: b) = pySplitUnderscore [] ++ pySplitUnderscore b
    rw [pySplit_cons, if_pos rfl]
    rfl
  | cons c a ih =>
    show pySplitUnderscore (c :: (a ++ '_' :: b)) = _
    by_cases h : c = '_'
    · rw [pySplit_cons, if_pos h, ih, pySplit_cons, if_pos h]
      rfl
    · rw [pySplit_cons, if_neg h, ih, pySplit_cons, if_neg h]
      obtain ⟨s, ss, hss⟩ := List.exists_cons_of_ne_nil (pySplit_ne_nil a)
      rw [hss, List.cons_append]
      rfl

theorem pySplit_no_sep (l : List Char) (h : ∀ c ∈ l, c ≠ '_') :
    pySplitUnderscore l = [l] := by
  induction l with
  | nil => rfl
  | cons c rest ih =>
    rw [pySplit_cons, if_neg (h c (List.mem_cons_self _ _)),
      ih (fun x hx => h x (List.mem_cons_of_mem _ hx))]

theorem pyJoin_pySplit (l : List Char) :
    pyJoinUnderscore (pySplitUnderscore l) = l := by
  induction l with
  | nil => rfl
  | cons c rest ih =>
    rw [pySplit_cons]
    obtain ⟨s, ss, hss⟩ := List.exists_cons_of_ne_nil (pySplit_ne_nil rest)
    rw [hss] at ih
    by_cases h : c = '_'
    · rw [if_pos h, hss]
      show ([] : List Char) ++ '_' :: pyJoinUnderscore (s :: ss) = c :: rest
      rw [ih, h]
      rfl
    · rw [if_neg h, hss]
      cases ss with
      | nil =>
        have ih2 : s = rest := ih
        show c :: s = c :: rest
        rw [ih2]
      | cons t ts =>
        have ih2 : s ++ '_' :: pyJoinUnderscore (t :: ts) = rest := ih
        show (c :: s) ++ '_' :: pyJoinUnderscore (t :: ts) = c :: rest
        rw [← ih2]
        rfl

/-- An ASCII decimal digit's value, the elementary step of Python's
`int()`. -/
def charToDigit (c : Char) : Option ℕ :=
  if '0' ≤ c ∧ c ≤ '9' then some (c.toNat - '0'.toNat) else none

/-- One accumulator step of decimal parsing. -/
def digitStep (acc : Option ℕ) (c : Char) : Option ℕ :=
  match acc, charToDigit c with
  | some n, some d => some (10 * n + d)
  | _, _ => none

/-- Parse a non-empty all-digit string to a natural number. -/
def parseDigitList (l : List Char) : Option ℕ :=
  match l with
  | [] => none
  | _ => l.foldl digitStep (some 0)

/-- Python's `int(s)` on the strings reachable here: an optional sign
followed by decimal digits; `none` models the raised `ValueError`. -/
def pyParseInt (l : List Char) : Option ℤ :=
  match l with
  | [] => none
  | c :: rest =>
    if c = '-' then Option.map (fun v : ℕ => -(v : ℤ)) (parseDigitList rest)
    else if c = '+' then Option.map (fun v : ℕ => (v : ℤ)) (parseDigitList rest)
    else Option.map (fun v : ℕ => (v : ℤ)) (parseDigitList (c :: rest))

theorem pyParseInt_cons (c : Char) (rest : List Char) :
    pyParseInt (c :: rest)
      = if c = '-' then Option.map (fun v : ℕ => -(v : ℤ)) (parseDigitList rest)
        else if c = '+' then Option.map (fun v : ℕ => (v : ℤ)) (parseDigitList rest)
        else Option.map (fun v : ℕ => (v : ℤ)) (parseDigitList (c :: rest)) := rfl

/-- Python's `str(n)` for a natural number. -/
def natToChars (n : ℕ) : List Char :=
  if n = 0 then ['0'] else ((Nat.digits 10 n).map Nat.digitChar).reverse

theorem charToDigit_digitChar (v : ℕ) (hv : v < 10) :
    charToDigit (Nat.digitChar v) = some v := by
  interval_cases v <;> decide

theorem digitChar_ne_underscore (v : ℕ) (hv : v < 10) :
    Nat.digitChar v ≠ '_' := by
  interval_cases v <;> decide

theorem digitChar_ne_sign (v : ℕ) (hv : v < 10) :
    Nat.digitChar v ≠ '-' ∧ Nat.digitChar v ≠ '+' := by
  interval_cases v <;> exact ⟨by decide, by decide⟩

theorem natToChars_no_underscore (n : ℕ) :
    ∀ c ∈ natToChars n, c ≠ '_' := by
  intro c hc
  unfold natToChars at hc
  by_cases h : n = 0
  · rw [if_pos h] at hc
    simp only [List.mem_singleton] at hc
    rw [hc]
    decide
  · rw [if_neg h, List.mem_reverse] at hc
    obtain ⟨v, hv, hvc⟩ := List.mem_map.mp hc
    rw [← hvc]
    exact digitChar_ne_underscore v (Nat.digits_lt_base (by norm_num) hv)

theorem foldl_digitStep_digits (L : List ℕ) (hL : ∀ x ∈ L, x < 10) (a : ℕ) :
    List.foldl digitStep (some a) ((L.map Nat.digitChar).reverse)
      = some (a * 10 ^ L.length + Nat.ofDigits 10 L) := by
  induction L generalizing a with
  | nil =>
    show some a = some (a * 10 ^ 0 + Nat.ofDigits 10 [])
    rw [Nat.ofDigits_nil, pow_zero, Nat.mul_one, Nat.add_zero]
  | cons v L ih =>
    have hv : v < 10 := hL v (List.mem_cons_self _ _)
    have hL2 : ∀ x ∈ L, x < 10 := fun x hx => hL x (List.mem_cons_of_mem _ hx)
    rw [List.map_cons, List.reverse_cons, List.foldl_append, ih hL2 a]
    show digitStep (some (a * 10 ^ L.length + Nat.ofDigits 10 L)) (Nat.digitChar v) = _
    rw [show digitStep (some (a * 10 ^ L.length + Nat.ofDigits 10 L)) (Nat.digitChar v)
        = some (10 * (a * 10 ^ L.length + Nat.ofDigits 10 L) + v) from by
      unfold digitStep
      rw [charToDigit_digitChar v hv]]
    rw [Nat.ofDigits_cons, List.length_cons]
    congr 1
    ring

theorem parseDigitList_natToChars (n : ℕ) :
    parseDigitList (natToChars n) = some n := by
  by_cases h : n = 0
  · rw [h]
    decide
  · have hd : Nat.digits 10 n ≠ [] := Nat.digits_ne_nil_iff_ne_zero.mpr h
    have hnt : natToChars n = ((Nat.digits 10 n).map Nat.digitChar).reverse := by
      unfold natToChars
      rw [if_neg h]
    obtain ⟨c, cs, hcs⟩ : ∃ c cs,
        ((Nat.digits 10 n).map Nat.digitChar).reverse = c :: cs := by
      rcases List.exists_cons_of_ne_nil (l := ((Nat.digits 10 n).map Nat.digitChar).reverse)
        (by simpa using hd) with ⟨c, cs, hcs⟩
      exact ⟨c, cs, hcs⟩
    rw [hnt, hcs]
    show (c :: cs).foldl digitStep (some 0) = some n
    rw [← hcs, foldl_digitStep_digits _ (fun x hx => Nat.digits_lt_base (by norm_num) hx) 0,
      Nat.zero_mul, Nat.zero_add, Nat.ofDigits_digits]

theorem pyParseInt_natToChars (n : ℕ) :
    pyParseInt (natToChars n) = some (n : ℤ) := by
  by_cases h : n = 0
  · rw [h]
    decide
  · have hd : Nat.digits 10 n ≠ [] := Nat.digits_ne_nil_iff_ne_zero.mpr h
    have hnt : natToChars n = ((Nat.digits 10 n).map Nat.digitChar).reverse := by
      unfold natToChars
      rw [if_neg h]
    obtain ⟨c, cs, hcs⟩ : ∃ c cs,
        ((Nat.digits 10 n).map Nat.digitChar).reverse = c :: cs := by
      rcases List.exists_cons_of_ne_nil (l := ((Nat.digits 10 n).map Nat.digitChar).reverse)
        (by simpa using hd) with ⟨c, cs, hcs⟩
      exact ⟨c, cs, hcs⟩
    have hcmem : c ∈ (Nat.digits 10 n).map Nat.digitChar := by
      rw [← List.mem_reverse, hcs]
      exact List.mem_cons_self _ _
    obtain ⟨v, hv, hvc⟩ := List.mem_map.mp hcmem
    have hv10 : v < 10 := Nat.digits_lt_base (by norm_num) hv
    have hsign := digitChar_ne_sign v hv10
    rw [hnt, hcs, pyParseInt_cons]
    rw [if_neg (by rw [← hvc]; exact hsign.1), if_neg (by rw [← hvc]; exact hsign.2)]
    have hpd : parseDigitList (c :: cs) = some n := by
      rw [← hcs, ← hnt]
      exact parseDigitList_natToChars n
    rw [hpd]
    rfl

/-- `CombinedKernel._combinedkernel_name`: render `'%s_%s' % (name, index)`. -/
def combinedKernelName (name : List Char) (index : ℕ) : List Char :=
  name ++ '_' :: natToChars index

/-- `CombinedKernel._kernel_name`: split on underscores, `int()`-parse the
last segment (a failure raises `RuntimeError`, modelled `Except.error`), and
rejoin the rest as the per-kernel parameter name. -/
def kernelNameParse (s : List Char) : Except (List Char) (List Char × ℤ) :=
  match pyParseInt ((pySplitUnderscore s).getLastD []) with
  | none => Except.error s
  | some i => Except.ok (pyJoinUnderscore (pySplitUnderscore s).dropLast, i)

/-- `CombinedKernel.update` restricted to a single incoming name: parse the
name, then route the stripped parameter to the indexed child kernel
(`self.kernels[ind].update(...)`, with Python's negative-index wrap and
`IndexError` modelled). -/
def combinedUpdate1 {α : Type} (kernels : List (PyKernel (List Char) α))
    (key : List Char) (val : α) :
    Except (List Char) (List (PyKernel (List Char) α)) :=
  match kernelNameParse key with
  | Except.error e => Except.error e
  | Except.ok (name, i) =>
    let idx : ℤ := if i < 0 then (kernels.length : ℤ) + i else i
    if h : 0 ≤ idx ∧ idx.toNat < kernels.length then
      Except.ok (kernels.set idx.toNat
        (kernelUpdate1 (kernels.get ⟨idx.toNat, h.2⟩) name val))
    else Except.error key

/-- Claim C7: parsing `"<name>_<i>"` recovers `(name, i)` exactly, so
`CombinedKernel.update` routes a suffixed parameter to the correct child
kernel, and a name whose trailing segment is not a parseable integer
raises the fatal `RuntimeError` (not a warning). -/
theorem combinedKernel_name_spec :
    (∀ (name : List Char) (i : ℕ),
      kernelNameParse (combinedKernelName name i) = Except.ok (name, (i : ℤ)))
    ∧ (∀ (α : Type) (s : List Char),
      pyParseInt ((pySplitUnderscore s).getLastD []) = none →
        ∀ (kernels : List (PyKernel (List Char) α)) (val : α),
          combinedUpdate1 kernels s val = Except.error s)
    ∧ (∀ (α : Type) (kernels : List (PyKernel (List Char) α)) (name : List Char) (i : ℕ)
        (val : α) (hi : i < kernels.length),
        combinedUpdate1 kernels (combinedKernelName name i) val
          = Except.ok (kernels.set i
              (kernelUpdate1 (kernels.get ⟨i, hi⟩) name val))) := by
  have hround : ∀ (name : List Char) (i : ℕ),
      kernelNameParse (combinedKernelName name i) = Except.ok (name, (i : ℤ)) := by
    intro name i
    have hsplit : pySplitUnderscore (combinedKernelName name i)
        = pySplitUnderscore name ++ [natToChars i] := by
      show pySplitUnderscore (name ++ '_' :: natToChars i) = _
      rw [pySplit_append, pySplit_no_sep (natToChars i) (natToChars_no_underscore i)]
    unfold kernelNameParse
    rw [hsplit, List.getLastD_concat, List.dropLast_concat, pyParseInt_natToChars,
      pyJoin_pySplit]
  refine ⟨hround, ?_, ?_⟩
  · intro α s hnone kernels val
    unfold combinedUpdate1
    rw [show kernelNameParse s = Except.error s from by
      unfold kernelNameParse
      rw [hnone]]
  · intro α kernels name i val hi
    unfold combinedUpdate1
    rw [hround name i]
    have hidx : (if (i : ℤ) < 0 then (kernels.length : ℤ) + i else i) = (i : ℤ) :=
      if_neg (by omega)
    simp only [hidx, Int.toNat_natCast]
    rw [dif_pos (⟨by omega, hi⟩ : 0 ≤ (i : ℤ) ∧ i < kernels.length)]

theorem combinedKernel_name_spec_witness :
    kernelNameParse (combinedKernelName ['s', 'i', 'g'] 12)
        = Except.ok (['s', 'i', 'g'], (12 : ℤ)) ∧
      combinedUpdate1 [(⟨[['s']], [(1 : ℚ)]⟩ : PyKernel (List Char) ℚ)] ['s'] 5
        = Except.error ['s'] ∧
      combinedUpdate1 [(⟨[['s']], [(1 : ℚ)]⟩ : PyKernel (List Char) ℚ)]
          (combinedKernelName ['s'] 0) (5 : ℚ)
        = Except.ok [kernelUpdate1 (⟨[['s']], [(1 : ℚ)]⟩ : PyKernel (List Char) ℚ) ['s'] 5] := by
  refine ⟨combinedKernel_name_spec.1 ['s', 'i', 'g'] 12, ?_, ?_⟩
  · exact combinedKernel_name_spec.2.1 ℚ ['s'] (by decide) _ 5
  · exact combinedKernel_name_spec.2.2 ℚ [(⟨[['s']], [(1 : ℚ)]⟩ : PyKernel (List Char) ℚ)]
      ['s'] 0 (5 : ℚ) (by decide)

/-
The sparse nearest-neighbor engine.  `NearestNeighborInterpolator` in the
source holds only `NotImplementedError` stubs, so the definitions below are
modelled from the spec (section 4.3): a total order over source points by a
designated coordinate with ties broken by position, per-point neighbor sets
of the k nearest already-ordered points, per-point exact conditioning on the
neighbor set, the induced sparse factor of the precision matrix, and target
prediction conditioned on target neighbor sets.
-/

/-- Euclidean squared distance between two points. -/
noncomputable def sqDist {d : ℕ} (p q : Point d) : ℝ := ∑ m, (p m - q m) ^ 2

/-- The predecessors of index `i` in the fixed total order. -/
def predSet {n : ℕ} (i : Fin n) : Finset (Fin n) :=
  Finset.univ.filter (fun u => u < i)

/-- Modelled from the spec: the sparse engine's ordering of the training
points, ascending in the designated coordinate with ties broken by original
position (`order_by_index`). -/
noncomputable def sortPerm {n : ℕ} (key : Fin n → ℝ) : Equiv.Perm (Fin n) :=
  Tuple.sort (fun i => toLex (key i, i))

/-- Modelled from the spec: among the predecessors of `i`, the number of
points strictly closer to point `i` than `j` is (distance ties broken by
index), i.e. `j`'s nearest-neighbor rank. -/
noncomputable def predRank {d n : ℕ} (ys : Fin n → Point d) (i j : Fin n) : ℕ :=
  ((predSet i).filter (fun u =>
    toLex (sqDist (ys u) (ys i), u) < toLex (sqDist (ys j) (ys i), j))).card

/-- Modelled from the spec: the neighbor set of training point `i` — the
`min(num_neighbors, i)` nearest already-ordered points. -/
noncomputable def nbhd {d n : ℕ} (c : ℕ) (ys : Fin n → Point d) (i : Fin n) :
    Finset (Fin n) :=
  (predSet i).filter (fun j => predRank ys i j < c)

/-- Modelled from the spec: a prediction point's rank ordering of the
source points by distance. -/
noncomputable def targetRank {d m n : ℕ} (ts : Fin m → Point d)
    (xs : Fin n → Point d) (t : Fin m) (j : Fin n) : ℕ :=
  (Finset.univ.filter (fun u =>
    toLex (sqDist (xs u) (ts t), u) < toLex (sqDist (xs j) (ts t), j))).card

/-- Modelled from the spec: the `num_neighbors` source points nearest to a
prediction point. -/
noncomputable def targetNbhd {d m n : ℕ} (c : ℕ) (ts : Fin m → Point d)
    (xs : Fin n → Point d) (t : Fin m) : Finset (Fin n) :=
  Finset.univ.filter (fun j => targetRank ts xs t j < c)

theorem predRank_lt {d n : ℕ} (ys : Fin n → Point d) (i j : Fin n) :
    predRank ys i j < n := by
  have hsub : (predSet i).filter (fun u =>
      toLex (sqDist (ys u) (ys i), u) < toLex (sqDist (ys j) (ys i), j))
      ⊆ Finset.univ.erase j := by
    intro u hu
    rw [Finset.mem_erase]
    refine ⟨?_, Finset.mem_univ u⟩
    intro huj
    rw [Finset.mem_filter] at hu
    exact absurd (huj ▸ hu.2) (lt_irrefl _)
  have hcard := Finset.card_le_card hsub
  rw [Finset.card_erase_of_mem (Finset.mem_univ j), Finset.card_univ,
    Fintype.card_fin] at hcard
  have hn : 0 < n := j.pos
  unfold predRank
  omega

theorem targetRank_lt {d m n : ℕ} (ts : Fin m → Point d) (xs : Fin n → Point d)
    (t : Fin m) (j : Fin n) : targetRank ts xs t j < n := by
  have hsub : Finset.univ.filter (fun u =>
      toLex (sqDist (xs u) (ts t), u) < toLex (sqDist (xs j) (ts t), j))
      ⊆ Finset.univ.erase j := by
    intro u hu
    rw [Finset.mem_erase]
    refine ⟨?_, Finset.mem_univ u⟩
    intro huj
    rw [Finset.mem_filter] at hu
    exact absurd (huj ▸ hu.2) (lt_irrefl _)
  have hcard := Finset.card_le_card hsub
  rw [Finset.card_erase_of_mem (Finset.mem_univ j), Finset.card_univ,
    Fintype.card_fin] at hcard
  have hn : 0 < n := j.pos
  unfold targetRank
  omega

theorem nbhd_saturated {d n : ℕ} (c : ℕ) (ys : Fin n → Point d) (i : Fin n)
    (hc : n ≤ c) : nbhd c ys i = predSet i := by
  unfold nbhd
  apply Finset.filter_true_of_mem
  intro j _
  exact lt_of_lt_of_le (predRank_lt ys i j) hc

theorem targetNbhd_saturated {d m n : ℕ} (c : ℕ) (ts : Fin m → Point d)
    (xs : Fin n → Point d) (t : Fin m) (hc : n ≤ c) :
    targetNbhd c ts xs t = Finset.univ := by
  unfold targetNbhd
  apply Finset.filter_true_of_mem
  intro j _
  exact lt_of_lt_of_le (targetRank_lt ts xs t j) hc

/-- The covariance matrix restricted to a subset of the source points. -/
noncomputable def subCov {d n : ℕ} (k : KernelFun d) (xs : Fin n → Point d)
    (S : Finset (Fin n)) : Matrix ↥S ↥S ℝ :=
  (specSourceCov k xs).submatrix (fun a : ↥S => ↑a) (fun a : ↥S => ↑a)

/-- Modelled from the spec: the coefficients of the exact dense-GP
conditioning of point `i` restricted to the subset `S`,
`K_{i,S} K_{S,S}⁻¹`. -/
noncomputable def condCoeff {d n : ℕ} (k : KernelFun d) (xs : Fin n → Point d)
    (S : Finset (Fin n)) (i : Fin n) : ↥S → ℝ :=
  Matrix.vecMul (fun a : ↥S => k (xs i) (xs ↑a)) (subCov k xs S)⁻¹

/-- Modelled from the spec: the conditional mean of point `i` given the
values on `S`. -/
noncomputable def condMean {d n : ℕ} (k : KernelFun d) (xs : Fin n → Point d)
    (S : Finset (Fin n)) (i : Fin n) (f : Fin n → ℝ) : ℝ :=
  condCoeff k xs S i ⬝ᵥ (fun a : ↥S => f ↑a)

/-- Modelled from the spec: the conditional variance of point `i` given the
subset `S` (the Schur complement entry). -/
noncomputable def condVar {d n : ℕ} (k : KernelFun d) (xs : Fin n → Point d)
    (S : Finset (Fin n)) (i : Fin n) : ℝ :=
  k (xs i) (xs i) - condCoeff k xs S i ⬝ᵥ (fun a : ↥S => k (xs ↑a) (xs i))

/-- A positive-definite matrix stays positive definite on the submatrix cut
out by an injective index map. -/
theorem posDef_submatrix_inj {ι κ : Type} [Fintype ι] [Fintype κ]
    [DecidableEq ι] [DecidableEq κ] {M : Matrix ι ι ℝ} (hM : M.PosDef)
    (e : κ → ι) (he : Function.Injective e) : (M.submatrix e e).PosDef := by
  constructor
  · exact hM.1.submatrix e
  · intro x hx
    set y : ι → ℝ := fun i => ∑ a : κ, if e a = i then x a else 0 with hy
    have hya : ∀ a : κ, y (e a) = x a := by
      intro a
      rw [hy]
      have : ∀ b : κ, (if e b = e a then x b else 0) = if b = a then x b else 0 := by
        intro b
        by_cases hba : b = a
        · rw [if_pos (by rw [hba]), if_pos hba]
        · rw [if_neg (fun hh => hba (he hh)), if_neg hba]
      simp only [this]
      rw [Finset.sum_ite_eq' Finset.univ a x, if_pos (Finset.mem_univ a)]
    have hyne : y ≠ 0 := by
      intro h0
      apply hx
      funext a
      have := congrFun h0 (e a)
      rw [hya a] at this
      exact this
    have hquad : Matrix.dotProduct x ((M.submatrix e e).mulVec x)
        = Matrix.dotProduct y (M.mulVec y) := by
      unfold Matrix.dotProduct Matrix.mulVec
      simp only [Matrix.submatrix_apply]
      have hinner : ∀ i : ι, (Matrix.dotProduct (M i) y) = ∑ b : κ, M i (e b) * x b := by
        intro i
        unfold Matrix.dotProduct
        rw [hy]
        simp only [Finset.mul_sum]
        rw [Finset.sum_comm]
        apply Finset.sum_congr rfl
        intro b _
        simp only [mul_ite, mul_zero]
        rw [Finset.sum_ite_eq Finset.univ (e b) (fun j => M i j * x b),
          if_pos (Finset.mem_univ _)]
      calc (∑ a, x a * Matrix.dotProduct (fun b => M (e a) (e b)) x)
          = ∑ a, x a * ∑ b, M (e a) (e b) * x b := rfl
        _ = ∑ i, y i * Matrix.dotProduct (M i) y := by
            simp only [hinner]
            rw [hy]
            simp only [Finset.sum_mul, ite_mul, zero_mul]
            rw [Finset.sum_comm]
            apply Finset.sum_congr rfl
            intro a _
            rw [Finset.sum_ite_eq Finset.univ (e a)
              (fun i => x a * ∑ b, M i (e b) * x b), if_pos (Finset.mem_univ _)]
    have hpos := hM.2 y hyne
    have hstar : star y = y := by
      funext i
      exact star_trivial _
    rw [hstar] at hpos
    have hstarx : star x = x := by
      funext a
      exact star_trivial _
    rw [hstarx]
    calc (0 : ℝ) < Matrix.dotProduct y (M.mulVec y) := hpos
      _ = Matrix.dotProduct x ((M.submatrix e e).mulVec x) := hquad.symm

/-- Collapse a sum of a membership-dependent summand to a sum over the
subset's subtype. -/
theorem sum_dite_mem {n : ℕ} (S : Finset (Fin n)) (φ : ↥S → ℝ) :
    (∑ q, if h : q ∈ S then φ ⟨q, h⟩ else 0) = ∑ a : ↥S, φ a := by
  rw [← Finset.sum_subset (Finset.subset_univ S) (fun x _ hx => dif_neg hx)]
  rw [Finset.sum_dite_of_true (fun i hi => hi)]

/-- Modelled from the spec: the unit lower-triangular Vecchia factor — row
`i` carries 1 at `i` and minus the conditioning coefficients on `i`'s
neighbor set. -/
noncomputable def vecchiaB {d n : ℕ} (c : ℕ) (k : KernelFun d)
    (ys : Fin n → Point d) : Matrix (Fin n) (Fin n) ℝ :=
  Matrix.of fun i j =>
    if i = j then 1
    else if h : j ∈ nbhd c ys i then -(condCoeff k ys (nbhd c ys i) i ⟨j, h⟩) else 0

/-- Modelled from the spec: the diagonal of per-point conditional
variances. -/
noncomputable def vecchiaD {d n : ℕ} (c : ℕ) (k : KernelFun d)
    (ys : Fin n → Point d) : Matrix (Fin n) (Fin n) ℝ :=
  Matrix.diagonal (fun i => condVar k ys (nbhd c ys i) i)

/-- Modelled from the spec: the sparse factorization of the precision
matrix implied by the neighbor structure, `Bᵀ D⁻¹ B`. -/
noncomputable def nnPrecision {d n : ℕ} (c : ℕ) (k : KernelFun d)
    (ys : Fin n → Point d) : Matrix (Fin n) (Fin n) ℝ :=
  (vecchiaB c k ys)ᵀ * (vecchiaD c k ys)⁻¹ * vecchiaB c k ys

/-- The saturated (all predecessors) Vecchia factor. -/
noncomputable def predB {d n : ℕ} (k : KernelFun d) (ys : Fin n → Point d) :
    Matrix (Fin n) (Fin n) ℝ :=
  Matrix.of fun i j =>
    if i = j then 1
    else if h : j ∈ predSet i then -(condCoeff k ys (predSet i) i ⟨j, h⟩) else 0

/-- The saturated conditional variance of point `i` given all its
predecessors. -/
noncomputable def dvar {d n : ℕ} (k : KernelFun d) (ys : Fin n → Point d)
    (i : Fin n) : ℝ :=
  condVar k ys (predSet i) i

theorem vecchiaB_saturated {d n : ℕ} (c : ℕ) (k : KernelFun d)
    (ys : Fin n → Point d) (hc : n ≤ c) : vecchiaB c k ys = predB k ys := by
  ext i j
  show (if i = j then 1
    else if h : j ∈ nbhd c ys i then -(condCoeff k ys (nbhd c ys i) i ⟨j, h⟩) else 0)
    = (if i = j then 1
    else if h : j ∈ predSet i then -(condCoeff k ys (predSet i) i ⟨j, h⟩) else 0)
  rw [nbhd_saturated c ys i hc]

theorem vecchiaD_saturated {d n : ℕ} (c : ℕ) (k : KernelFun d)
    (ys : Fin n → Point d) (hc : n ≤ c) :
    vecchiaD c k ys = Matrix.diagonal (dvar k ys) := by
  unfold vecchiaD
  have hfun : (fun i => condVar k ys (nbhd c ys i) i) = dvar k ys := by
    funext i
    rw [nbhd_saturated c ys i hc]
    rfl
  rw [hfun]

theorem predB_diag {d n : ℕ} (k : KernelFun d) (ys : Fin n → Point d)
    (i : Fin n) : predB k ys i i = 1 := by
  show (if i = i then (1:ℝ) else _) = 1
  rw [if_pos rfl]

theorem predB_zero_of_lt {d n : ℕ} (k : KernelFun d) (ys : Fin n → Point d)
    {i j : Fin n} (hij : i < j) : predB k ys i j = 0 := by
  show (if i = j then (1:ℝ)
    else if h : j ∈ predSet i then -(condCoeff k ys (predSet i) i ⟨j, h⟩) else 0) = 0
  rw [if_neg (by intro hh; rw [hh] at hij; exact absurd hij (lt_irrefl j)), dif_neg]
  intro hmem
  rw [predSet, Finset.mem_filter] at hmem
  exact absurd (lt_trans hij hmem.2) (lt_irrefl i)

theorem specSourceCov_symm {d n : ℕ} {k : KernelFun d} {xs : Fin n → Point d}
    (hpd : (specSourceCov k xs).PosDef) (p q : Fin n) :
    specSourceCov k xs p q = specSourceCov k xs q p := by
  have h := congrFun (congrFun hpd.1 p) q
  have h2 : star (specSourceCov k xs q p) = specSourceCov k xs p q := h
  rw [star_trivial] at h2
  exact h2.symm

theorem subCov_posDef {d n : ℕ} {k : KernelFun d} {xs : Fin n → Point d}
    (hpd : (specSourceCov k xs).PosDef) (S : Finset (Fin n)) :
    (subCov k xs S).PosDef :=
  posDef_submatrix_inj hpd _ Subtype.val_injective

theorem subCov_isUnit_det {d n : ℕ} {k : KernelFun d} {xs : Fin n → Point d}
    (hpd : (specSourceCov k xs).PosDef) (S : Finset (Fin n)) :
    IsUnit (subCov k xs S).det :=
  isUnit_iff_ne_zero.mpr (ne_of_gt (subCov_posDef hpd S).det_pos)

theorem subCov_symm {d n : ℕ} {k : KernelFun d} {xs : Fin n → Point d}
    (hpd : (specSourceCov k xs).PosDef) (S : Finset (Fin n)) :
    (subCov k xs S)ᵀ = subCov k xs S := by
  ext a b
  show subCov k xs S b a = subCov k xs S a b
  show specSourceCov k xs ↑b ↑a = specSourceCov k xs ↑a ↑b
  exact specSourceCov_symm hpd _ _

/-- The conditioning coefficients reproduce the covariance on the subset:
for `p ∈ S`, `Σ_{a ∈ S} K(p,a) w_a = K(p,i)`. -/
theorem condCoeff_reproduce {d n : ℕ} {k : KernelFun d} {xs : Fin n → Point d}
    (hpd : (specSourceCov k xs).PosDef) (S : Finset (Fin n)) (i p : Fin n)
    (hp : p ∈ S) :
    (∑ a : ↥S, specSourceCov k xs p ↑a * condCoeff k xs S i a)
      = specSourceCov k xs p i := by
  have hw : condCoeff k xs S i
      = (subCov k xs S)⁻¹.mulVec (fun a : ↥S => k (xs i) (xs ↑a)) := by
    unfold condCoeff
    rw [← Matrix.mulVec_transpose, Matrix.transpose_nonsing_inv, subCov_symm hpd]
  have hmv : (subCov k xs S).mulVec (condCoeff k xs S i)
      = fun a : ↥S => k (xs i) (xs ↑a) := by
    rw [hw, Matrix.mulVec_mulVec, Matrix.mul_nonsing_inv _ (subCov_isUnit_det hpd S),
      Matrix.one_mulVec]
  have happ := congrFun hmv ⟨p, hp⟩
  have hexp : (subCov k xs S).mulVec (condCoeff k xs S i) ⟨p, hp⟩
      = ∑ a : ↥S, specSourceCov k xs p ↑a * condCoeff k xs S i a := rfl
  rw [hexp] at happ
  rw [happ]
  show k (xs i) (xs p) = specSourceCov k xs p i
  exact specSourceCov_symm hpd i p

/-- Expansion of a row of `K * predBᵀ`. -/
theorem sum_row_predB {d n : ℕ} (k : KernelFun d) (ys : Fin n → Point d)
    (p j : Fin n) :
    (∑ q, specSourceCov k ys p q * predB k ys j q)
      = specSourceCov k ys p j
        - ∑ a : ↥(predSet j), specSourceCov k ys p ↑a * condCoeff k ys (predSet j) j a := by
  have hsummand : ∀ q, specSourceCov k ys p q * predB k ys j q
      = (if q = j then specSourceCov k ys p j else 0)
        + (if h : q ∈ predSet j
            then -(specSourceCov k ys p q * condCoeff k ys (predSet j) j ⟨q, h⟩) else 0) := by
    intro q
    by_cases hqj : q = j
    · subst hqj
      have hnm : q ∉ predSet q := by
        rw [predSet, Finset.mem_filter]
        intro hh
        exact absurd hh.2 (lt_irrefl q)
      rw [if_pos rfl, dif_neg hnm, predB_diag, mul_one, add_zero]
    · rw [if_neg hqj]
      by_cases hmem : q ∈ predSet j
      · have hBval : predB k ys j q = -(condCoeff k ys (predSet j) j ⟨q, hmem⟩) := by
          show (if j = q then (1:ℝ)
            else if h : q ∈ predSet j then -(condCoeff k ys (predSet j) j ⟨q, h⟩) else 0) = _
          rw [if_neg (fun hh => hqj hh.symm), dif_pos hmem]
        rw [hBval, dif_pos hmem, zero_add]
        ring
      · have hBval : predB k ys j q = 0 := by
          show (if j = q then (1:ℝ)
            else if h : q ∈ predSet j then -(condCoeff k ys (predSet j) j ⟨q, h⟩) else 0) = _
          rw [if_neg (fun hh => hqj hh.symm), dif_neg hmem]
        rw [hBval, dif_neg hmem, mul_zero, add_zero]
  calc (∑ q, specSourceCov k ys p q * predB k ys j q)
      = ∑ q, ((if q = j then specSourceCov k ys p j else 0)
        + (if h : q ∈ predSet j
            then -(specSourceCov k ys p q * condCoeff k ys (predSet j) j ⟨q, h⟩) else 0)) :=
        Finset.sum_congr rfl (fun q _ => hsummand q)
    _ = specSourceCov k ys p j
        - ∑ a : ↥(predSet j), specSourceCov k ys p ↑a * condCoeff k ys (predSet j) j a := by
        rw [Finset.sum_add_distrib]
        rw [Finset.sum_ite_eq' Finset.univ j (fun _ => specSourceCov k ys p j),
          if_pos (Finset.mem_univ j)]
        rw [sum_dite_mem (predSet j)
          (fun a => -(specSourceCov k ys p ↑a * condCoeff k ys (predSet j) j a))]
        rw [Finset.sum_neg_distrib]
        ring

theorem predB_row_u_zero {d n : ℕ} {k : KernelFun d} {ys : Fin n → Point d}
    (hpd : (specSourceCov k ys).PosDef) (p j : Fin n) (hpj : p < j) :
    (∑ q, specSourceCov k ys p q * predB k ys j q) = 0 := by
  rw [sum_row_predB]
  have hp : p ∈ predSet j := by
    rw [predSet, Finset.mem_filter]
    exact ⟨Finset.mem_univ p, hpj⟩
  rw [condCoeff_reproduce hpd (predSet j) j p hp]
  ring

theorem predB_row_u_diag {d n : ℕ} {k : KernelFun d} {ys : Fin n → Point d}
    (hpd : (specSourceCov k ys).PosDef) (j : Fin n) :
    (∑ q, specSourceCov k ys j q * predB k ys j q) = dvar k ys j := by
  rw [sum_row_predB]
  show specSourceCov k ys j j - _
    = k (ys j) (ys j) - condCoeff k ys (predSet j) j ⬝ᵥ (fun a => k (ys ↑a) (ys j))
  congr 1
  show (∑ a : ↥(predSet j), specSourceCov k ys j ↑a * condCoeff k ys (predSet j) j a)
    = ∑ a : ↥(predSet j), condCoeff k ys (predSet j) j a * k (ys ↑a) (ys j)
  apply Finset.sum_congr rfl
  intro a _
  calc specSourceCov k ys j ↑a * condCoeff k ys (predSet j) j a
      = specSourceCov k ys ↑a j * condCoeff k ys (predSet j) j a := by
        rw [specSourceCov_symm hpd j ↑a]
    _ = condCoeff k ys (predSet j) j a * k (ys ↑a) (ys j) := mul_comm _ _

/-- The saturated Vecchia factorization is exact: `B K Bᵀ = D`. -/
theorem predB_BKBt {d n : ℕ} {k : KernelFun d} {ys : Fin n → Point d}
    (hpd : (specSourceCov k ys).PosDef) :
    predB k ys * specSourceCov k ys * (predB k ys)ᵀ
      = Matrix.diagonal (dvar k ys) := by
  have hKsym : (specSourceCov k ys)ᵀ = specSourceCov k ys := by
    ext a b
    exact specSourceCov_symm hpd b a
  have hsym : (predB k ys * specSourceCov k ys * (predB k ys)ᵀ)ᵀ
      = predB k ys * specSourceCov k ys * (predB k ys)ᵀ := by
    rw [Matrix.transpose_mul, Matrix.transpose_mul, Matrix.transpose_transpose,
      hKsym, Matrix.mul_assoc]
  have hKB : ∀ p j : Fin n,
      (specSourceCov k ys * (predB k ys)ᵀ) p j
        = ∑ q, specSourceCov k ys p q * predB k ys j q := by
    intro p j
    rw [Matrix.mul_apply]
    apply Finset.sum_congr rfl
    intro q _
    rw [Matrix.transpose_apply]
  have hentry : ∀ i j : Fin n, i ≤ j →
      (predB k ys * specSourceCov k ys * (predB k ys)ᵀ) i j
        = Matrix.diagonal (dvar k ys) i j := by
    intro i j hij
    rw [Matrix.mul_assoc, Matrix.mul_apply]
    rcases lt_or_eq_of_le hij with hlt | heq
    · rw [Matrix.diagonal_apply_ne _ (ne_of_lt hlt)]
      apply Finset.sum_eq_zero
      intro p _
      by_cases hpi : p ≤ i
      · rw [hKB p j, predB_row_u_zero hpd p j (lt_of_le_of_lt hpi hlt), mul_zero]
      · rw [predB_zero_of_lt k ys (lt_of_not_le hpi), zero_mul]
    · subst heq
      rw [Matrix.diagonal_apply_eq]
      rw [Finset.sum_eq_single i ?hz ?hm]
      · rw [hKB i i, predB_row_u_diag hpd i, predB_diag, one_mul]
      case hz =>
        intro p _ hpi
        rcases lt_or_gt_of_ne hpi with hlt | hgt
        · rw [hKB p i, predB_row_u_zero hpd p i hlt, mul_zero]
        · rw [predB_zero_of_lt k ys hgt, zero_mul]
      case hm =>
        intro habs
        exact absurd (Finset.mem_univ i) habs
  ext i j
  rcases le_or_lt i j with hij | hji
  · exact hentry i j hij
  · have h1 := hentry j i (le_of_lt hji)
    have h2 := congrFun (congrFun hsym j) i
    rw [Matrix.transpose_apply] at h2
    rw [Matrix.diagonal_apply_ne _ (ne_of_gt hji)]
    rw [h2, h1, Matrix.diagonal_apply_ne _ (ne_of_lt hji)]

theorem dvar_pos {d n : ℕ} {k : KernelFun d} {ys : Fin n → Point d}
    (hpd : (specSourceCov k ys).PosDef) (i : Fin n) : 0 < dvar k ys i := by
  have hentry := congrFun (congrFun (predB_BKBt hpd) i) i
  rw [Matrix.diagonal_apply_eq] at hentry
  have hform : (predB k ys * specSourceCov k ys * (predB k ys)ᵀ) i i
      = Matrix.dotProduct (fun p => predB k ys i p)
          ((specSourceCov k ys).mulVec (fun q => predB k ys i q)) := by
    rw [Matrix.mul_assoc, Matrix.mul_apply]
    show _ = ∑ p, predB k ys i p
      * (specSourceCov k ys).mulVec (fun q => predB k ys i q) p
    apply Finset.sum_congr rfl
    intro p _
    congr 1
  have hne : (fun p => predB k ys i p) ≠ 0 := by
    intro h0
    have hii := congrFun h0 i
    rw [predB_diag] at hii
    exact one_ne_zero hii
  have hpos := hpd.2 _ hne
  rw [show star (fun p => predB k ys i p) = fun p => predB k ys i p from
    funext fun p => star_trivial _] at hpos
  rw [← hentry, hform]
  exact hpos

theorem predB_det {d n : ℕ} (k : KernelFun d) (ys : Fin n → Point d) :
    (predB k ys).det = 1 := by
  have htri : (predB k ys).BlockTriangular OrderDual.toDual := by
    intro i j hij
    exact predB_zero_of_lt k ys hij
  rw [Matrix.det_of_lowerTriangular _ htri]
  apply Finset.prod_eq_one
  intro i _
  exact predB_diag k ys i

theorem specCov_det_eq_prod_dvar {d n : ℕ} {k : KernelFun d}
    {ys : Fin n → Point d} (hpd : (specSourceCov k ys).PosDef) :
    (specSourceCov k ys).det = ∏ i, dvar k ys i := by
  have hdet := congrArg Matrix.det (predB_BKBt hpd)
  rw [Matrix.det_mul, Matrix.det_mul, Matrix.det_transpose, predB_det,
    one_mul, mul_one, Matrix.det_diagonal] at hdet
  exact hdet

theorem specCov_inv_eq {d n : ℕ} {k : KernelFun d} {ys : Fin n → Point d}
    (hpd : (specSourceCov k ys).PosDef) :
    (specSourceCov k ys)⁻¹
      = (predB k ys)ᵀ * (Matrix.diagonal (dvar k ys))⁻¹ * predB k ys := by
  have hBdet : IsUnit (predB k ys).det := by
    rw [predB_det]
    exact isUnit_one
  have hBtdet : IsUnit ((predB k ys)ᵀ).det := by
    rw [Matrix.det_transpose, predB_det]
    exact isUnit_one
  have hK : specSourceCov k ys
      = (predB k ys)⁻¹ * Matrix.diagonal (dvar k ys) * ((predB k ys)ᵀ)⁻¹ := by
    rw [← predB_BKBt hpd]
    rw [show predB k ys * specSourceCov k ys * (predB k ys)ᵀ
        = predB k ys * (specSourceCov k ys * (predB k ys)ᵀ) from Matrix.mul_assoc _ _ _]
    rw [Matrix.nonsing_inv_mul_cancel_left _ _ hBdet]
    rw [Matrix.mul_nonsing_inv_cancel_right _ _ hBtdet]
  rw [hK, Matrix.mul_inv_rev, Matrix.mul_inv_rev,
    Matrix.nonsing_inv_nonsing_inv _ hBtdet, Matrix.nonsing_inv_nonsing_inv _ hBdet,
    Matrix.mul_assoc]

theorem predB_mulVec {d n : ℕ} (k : KernelFun d) (ys : Fin n → Point d)
    (g : Fin n → ℝ) (i : Fin n) :
    (predB k ys).mulVec g i = g i - condMean k ys (predSet i) i g := by
  show (∑ j, predB k ys i j * g j) = _
  have hsummand : ∀ j, predB k ys i j * g j
      = (if j = i then g i else 0)
        + (if h : j ∈ predSet i
            then -(condCoeff k ys (predSet i) i ⟨j, h⟩ * g j) else 0) := by
    intro j
    by_cases hji : j = i
    · subst hji
      have hnm : j ∉ predSet j := by
        rw [predSet, Finset.mem_filter]
        intro hh
        exact absurd hh.2 (lt_irrefl j)
      rw [if_pos rfl, dif_neg hnm, predB_diag, one_mul, add_zero]
    · rw [if_neg hji]
      by_cases hmem : j ∈ predSet i
      · have hBval : predB k ys i j = -(condCoeff k ys (predSet i) i ⟨j, hmem⟩) := by
          show (if i = j then (1:ℝ)
            else if h : j ∈ predSet i then -(condCoeff k ys (predSet i) i ⟨j, h⟩) else 0) = _
          rw [if_neg (fun hh => hji hh.symm), dif_pos hmem]
        rw [hBval, dif_pos hmem, zero_add]
        ring
      · have hBval : predB k ys i j = 0 := by
          show (if i = j then (1:ℝ)
            else if h : j ∈ predSet i then -(condCoeff k ys (predSet i) i ⟨j, h⟩) else 0) = _
          rw [if_neg (fun hh => hji hh.symm), dif_neg hmem]
        rw [hBval, dif_neg hmem, zero_mul, add_zero]
  calc (∑ j, predB k ys i j * g j)
      = ∑ j, ((if j = i then g i else 0)
        + (if h : j ∈ predSet i
            then -(condCoeff k ys (predSet i) i ⟨j, h⟩ * g j) else 0)) :=
        Finset.sum_congr rfl (fun j _ => hsummand j)
    _ = g i - condMean k ys (predSet i) i g := by
        rw [Finset.sum_add_distrib]
        rw [Finset.sum_ite_eq' Finset.univ i (fun _ => g i), if_pos (Finset.mem_univ i)]
        rw [sum_dite_mem (predSet i)
          (fun a => -(condCoeff k ys (predSet i) i a * g ↑a))]
        rw [Finset.sum_neg_distrib]
        show g i + -(∑ a : ↥(predSet i), condCoeff k ys (predSet i) i a * g ↑a) = _
        rw [show condMean k ys (predSet i) i g
          = ∑ a : ↥(predSet i), condCoeff k ys (predSet i) i a * g ↑a from rfl]
        ring

theorem quad_eq_sum {d n : ℕ} {k : KernelFun d} {ys : Fin n → Point d}
    (hpd : (specSourceCov k ys).PosDef) (g : Fin n → ℝ) :
    Matrix.vecMul g (specSourceCov k ys)⁻¹ ⬝ᵥ g
      = ∑ i, ((predB k ys).mulVec g i) * (dvar k ys i)⁻¹
          * ((predB k ys).mulVec g i) := by
  have hDinv : (Matrix.diagonal (dvar k ys))⁻¹
      = Matrix.diagonal (fun i => (dvar k ys i)⁻¹) := by
    apply Matrix.inv_eq_right_inv
    rw [Matrix.diagonal_mul_diagonal]
    rw [show (fun i => dvar k ys i * (dvar k ys i)⁻¹) = fun _ : Fin n => (1:ℝ) from
      funext fun i => mul_inv_cancel₀ (ne_of_gt (dvar_pos hpd i))]
    exact Matrix.diagonal_one
  rw [specCov_inv_eq hpd, hDinv]
  rw [← Matrix.vecMul_vecMul, ← Matrix.vecMul_vecMul]
  rw [Matrix.vecMul_transpose]
  rw [← Matrix.dotProduct_mulVec]
  show (∑ i, (Matrix.vecMul ((predB k ys).mulVec g)
      (Matrix.diagonal (fun i => (dvar k ys i)⁻¹))) i * ((predB k ys).mulVec g) i) = _
  apply Finset.sum_congr rfl
  intro i _
  rw [Matrix.vecMul_diagonal]

/-- The log-density of a one-dimensional Gaussian. -/
noncomputable def gaussLogpdf (x mu v : ℝ) : ℝ :=
  -(1/2) * (x - mu) ^ 2 / v - (1/2) * Real.log v - (1/2) * Real.log (2 * Real.pi)

/-- Modelled from the spec: the sparse engine's marginal log-likelihood on
already-ordered points — the product (sum of logs) of each point's Gaussian
density conditioned on its own neighbor set. -/
noncomputable def nnLoglikelihoodOrdered {d n : ℕ} (c : ℕ) (k : KernelFun d)
    (ys : Fin n → Point d) (g : Fin n → ℝ) : ℝ :=
  ∑ i, gaussLogpdf (g i) (condMean k ys (nbhd c ys i) i g)
    (condVar k ys (nbhd c ys i) i)

/-- Modelled from the spec: the sparse engine's `loglikelihood` — order the
sources by the designated coordinate, then apply the Vecchia product. -/
noncomputable def nnLoglikelihood {d n : ℕ} (c : ℕ) (o : Fin d) (k : KernelFun d)
    (xs : Fin n → Point d) (f : Fin n → ℝ) : ℝ :=
  nnLoglikelihoodOrdered c k (xs ∘ (sortPerm fun i => xs i o))
    (f ∘ (sortPerm fun i => xs i o))

theorem nnLoglikelihoodOrdered_saturated {d n : ℕ} {c : ℕ} (k : KernelFun d)
    (ys : Fin n → Point d) (g : Fin n → ℝ) (hc : n ≤ c) :
    nnLoglikelihoodOrdered c k ys g
      = ∑ i, gaussLogpdf (g i) (condMean k ys (predSet i) i g) (dvar k ys i) := by
  unfold nnLoglikelihoodOrdered
  apply Finset.sum_congr rfl
  intro i _
  rw [nbhd_saturated c ys i hc]
  rfl

/-- The dense marginal log-likelihood equals the sum of the per-point
conditional Gaussian log-densities on all predecessors. -/
theorem loglikelihood_eq_gauss_sum {d n : ℕ} {k : KernelFun d}
    {ys : Fin n → Point d} (hpd : (specSourceCov k ys).PosDef) (g : Fin n → ℝ) :
    loglikelihood k ys g
      = some (∑ i, gaussLogpdf (g i) (condMean k ys (predSet i) i g)
          (dvar k ys i)) := by
  show (if 0 < (x2cov k ys ys).det then
      some (-(1/2) * (Matrix.vecMul g (x2cov k ys ys)⁻¹ ⬝ᵥ g)
        - (1/2) * Real.log |(x2cov k ys ys).det|
        - (1/2) * (n : ℝ) * Real.log (2 * Real.pi))
    else none) = _
  rw [x2cov_eq_specSourceCov k ys]
  rw [if_pos hpd.det_pos]
  congr 1
  rw [abs_of_pos hpd.det_pos]
  rw [quad_eq_sum hpd g]
  rw [specCov_det_eq_prod_dvar hpd]
  rw [Real.log_prod _ _ (fun i _ => ne_of_gt (dvar_pos hpd i))]
  rw [show (∑ i, gaussLogpdf (g i) (condMean k ys (predSet i) i g) (dvar k ys i))
      = ∑ i, (-(1/2) * ((predB k ys).mulVec g i * (dvar k ys i)⁻¹
            * (predB k ys).mulVec g i)
          - (1/2) * Real.log (dvar k ys i) - (1/2) * Real.log (2 * Real.pi)) from
    Finset.sum_congr rfl (fun i _ => by
      unfold gaussLogpdf
      rw [show g i - condMean k ys (predSet i) i g = (predB k ys).mulVec g i from
        (predB_mulVec k ys g i).symm]
      have hv := ne_of_gt (dvar_pos hpd i)
      field_simp
      ring)]
  rw [Finset.sum_sub_distrib, Finset.sum_sub_distrib, ← Finset.mul_sum,
    ← Finset.mul_sum, Finset.sum_const, Finset.card_univ, Fintype.card_fin,
    nsmul_eq_mul]
  ring

/-- Modelled from the spec: the sparse engine's `compress` — the
NNGP-implied precision applied to the values, computed in sorted order and
read back in caller order. -/
noncomputable def nnCompress {d n : ℕ} (c : ℕ) (o : Fin d) (k : KernelFun d)
    (xs : Fin n → Point d) (f : Fin n → ℝ) : Fin n → ℝ :=
  fun i => (nnPrecision c k (xs ∘ (sortPerm fun u => xs u o))).mulVec
    (f ∘ (sortPerm fun u => xs u o)) ((sortPerm fun u => xs u o).symm i)

/-- Modelled from the spec: the sparse engine's `predict` — each target's
mean uses only its own neighbor set of source points. -/
noncomputable def nnPredict {d m n : ℕ} (c : ℕ) (k : KernelFun d)
    (ts : Fin m → Point d) (xs : Fin n → Point d) (v : Fin n → ℝ) :
    Fin m → ℝ :=
  fun t => ∑ j ∈ targetNbhd c ts xs t, k (ts t) (xs j) * v j

/-- The target-source covariance restricted to a subset of the sources. -/
noncomputable def crossCovSub {d m n : ℕ} (k : KernelFun d) (ts : Fin m → Point d)
    (xs : Fin n → Point d) (U : Finset (Fin n)) : Matrix (Fin m) ↥U ℝ :=
  (specCrossCov k ts xs).submatrix id (fun a : ↥U => ↑a)

/-- Exact dense-GP conditioning of the target block restricted to a subset
of the source points. -/
noncomputable def conditionOnSubset {d m n : ℕ} (k : KernelFun d)
    (ts : Fin m → Point d) (xs : Fin n → Point d) (f : Fin n → ℝ)
    (U : Finset (Fin n)) : (Fin m → ℝ) × Matrix (Fin m) (Fin m) ℝ :=
  ((crossCovSub k ts xs U * (subCov k xs U)⁻¹).mulVec (fun a : ↥U => f ↑a),
   specCrossCov k ts ts
     - crossCovSub k ts xs U * (subCov k xs U)⁻¹ * (crossCovSub k ts xs U)ᵀ)

/-- Modelled from the spec: the sparse engine's `condition` — condition the
target block on the union of the targets' neighbor sets. -/
noncomputable def nnCondition {d m n : ℕ} (c : ℕ) (k : KernelFun d)
    (ts : Fin m → Point d) (xs : Fin n → Point d) (f : Fin n → ℝ) :
    (Fin m → ℝ) × Matrix (Fin m) (Fin m) ℝ :=
  conditionOnSubset k ts xs f
    (Finset.univ.filter (fun j => ∃ t, j ∈ targetNbhd c ts xs t))

theorem conditionOnSubset_univ {d m n : ℕ} (k : KernelFun d)
    (ts : Fin m → Point d) (xs : Fin n → Point d) (f : Fin n → ℝ) :
    conditionOnSubset k ts xs f Finset.univ = condition k ts xs f := by
  have he : ∀ x : Fin n, x ∈ (Finset.univ : Finset (Fin n)) := fun x =>
    Finset.mem_univ x
  have hcoe : (fun a : ↥(Finset.univ : Finset (Fin n)) => (↑a : Fin n))
      = ⇑(Equiv.subtypeUnivEquiv he) := rfl
  have hsub : subCov k xs Finset.univ
      = (specSourceCov k xs).submatrix ⇑(Equiv.subtypeUnivEquiv he)
          ⇑(Equiv.subtypeUnivEquiv he) := by
    unfold subCov
    rw [hcoe]
  have hcross : crossCovSub k ts xs Finset.univ
      = (specCrossCov k ts xs).submatrix id ⇑(Equiv.subtypeUnivEquiv he) := by
    unfold crossCovSub
    rw [hcoe]
  have hprod : crossCovSub k ts xs Finset.univ * (subCov k xs Finset.univ)⁻¹
      = (specCrossCov k ts xs * (specSourceCov k xs)⁻¹).submatrix id
          ⇑(Equiv.subtypeUnivEquiv he) := by
    rw [hsub, hcross, Matrix.inv_submatrix_equiv,
      Matrix.submatrix_mul_equiv (specCrossCov k ts xs) (specSourceCov k xs)⁻¹
        id (Equiv.subtypeUnivEquiv he) ⇑(Equiv.subtypeUnivEquiv he)]
  have hbridge : x2cov k ts xs * (x2cov k xs xs)⁻¹
      = specCrossCov k ts xs * (specSourceCov k xs)⁻¹ := by
    rw [x2cov_eq_specCrossCov, x2cov_eq_specSourceCov]
  apply Prod.ext
  · funext t
    show ((crossCovSub k ts xs Finset.univ * (subCov k xs Finset.univ)⁻¹).mulVec
      (fun a : ↥(Finset.univ : Finset (Fin n)) => f ↑a)) t
      = ((x2cov k ts xs * (x2cov k xs xs)⁻¹).mulVec f) t
    rw [hprod, hbridge]
    show (∑ a : ↥(Finset.univ : Finset (Fin n)),
        (specCrossCov k ts xs * (specSourceCov k xs)⁻¹) t
          ((Equiv.subtypeUnivEquiv he) a) * f ((Equiv.subtypeUnivEquiv he) a))
      = ∑ j, (specCrossCov k ts xs * (specSourceCov k xs)⁻¹) t j * f j
    exact Equiv.sum_comp (Equiv.subtypeUnivEquiv he)
      (fun j => (specCrossCov k ts xs * (specSourceCov k xs)⁻¹) t j * f j)
  · show specCrossCov k ts ts
      - crossCovSub k ts xs Finset.univ * (subCov k xs Finset.univ)⁻¹
        * (crossCovSub k ts xs Finset.univ)ᵀ
      = x2cov k ts ts - x2cov k ts xs * (x2cov k xs xs)⁻¹ * (x2cov k ts xs)ᵀ
    rw [hprod, hcross, hbridge, Matrix.transpose_submatrix,
      x2cov_eq_specCrossCov k ts ts, x2cov_eq_specCrossCov k ts xs]
    congr 1
    rw [Matrix.submatrix_mul_equiv
      (specCrossCov k ts xs * (specSourceCov k xs)⁻¹) (specCrossCov k ts xs)ᵀ
      id (Equiv.subtypeUnivEquiv he) id]
    rw [Matrix.submatrix_id_id]

theorem nnCondition_eq {d m n c : ℕ} (k : KernelFun d) (ts : Fin m → Point d)
    (xs : Fin n → Point d) (f : Fin n → ℝ) (hc : n ≤ c) :
    nnCondition c k ts xs f = condition k ts xs f := by
  rcases Nat.eq_zero_or_pos m with hm | hm
  · subst hm
    apply Prod.ext
    · funext t
      exact t.elim0
    · funext t
      exact t.elim0
  · have hU : (Finset.univ.filter (fun j => ∃ t, j ∈ targetNbhd c ts xs t))
        = Finset.univ := by
      apply Finset.filter_true_of_mem
      intro j _
      refine ⟨⟨0, hm⟩, ?_⟩
      rw [targetNbhd_saturated c ts xs _ hc]
      exact Finset.mem_univ j
    unfold nnCondition
    rw [hU]
    exact conditionOnSubset_univ k ts xs f

theorem nnPrecision_saturated {d n c : ℕ} {k : KernelFun d}
    {ys : Fin n → Point d} (hpd : (specSourceCov k ys).PosDef) (hc : n ≤ c) :
    nnPrecision c k ys = (specSourceCov k ys)⁻¹ := by
  unfold nnPrecision
  rw [vecchiaB_saturated c k ys hc, vecchiaD_saturated c k ys hc,
    specCov_inv_eq hpd]

theorem specSourceCov_comp_perm {d n : ℕ} (k : KernelFun d)
    (xs : Fin n → Point d) (σ : Equiv.Perm (Fin n)) :
    specSourceCov k (xs ∘ ⇑σ) = (specSourceCov k xs).submatrix ⇑σ ⇑σ := by
  ext i j
  rfl

theorem nnCompress_eq {d n c : ℕ} (k : KernelFun d) (o : Fin d)
    (xs : Fin n → Point d) (f : Fin n → ℝ)
    (hpd : (specSourceCov k xs).PosDef) (hc : n ≤ c) :
    nnCompress c o k xs f = compress k xs f := by
  have hpdσ : (specSourceCov k (xs ∘ ⇑(sortPerm fun u => xs u o))).PosDef := by
    rw [specSourceCov_comp_perm]
    exact posDef_submatrix_inj hpd _ (Equiv.injective _)
  funext i
  unfold nnCompress
  rw [nnPrecision_saturated hpdσ hc]
  rw [specSourceCov_comp_perm, Matrix.inv_submatrix_equiv]
  show (∑ j, (specSourceCov k xs)⁻¹ ((sortPerm fun u => xs u o)
      ((sortPerm fun u => xs u o).symm i)) ((sortPerm fun u => xs u o) j)
      * f ((sortPerm fun u => xs u o) j))
    = compress k xs f i
  rw [show ((sortPerm fun u => xs u o) ((sortPerm fun u => xs u o).symm i)) = i from
    Equiv.apply_symm_apply _ i]
  rw [Equiv.sum_comp (sortPerm fun u => xs u o)
    (fun j => (specSourceCov k xs)⁻¹ i j * f j)]
  show _ = ((x2cov k xs xs)⁻¹).mulVec f i
  rw [x2cov_eq_specSourceCov]
  rfl

theorem nnPredict_saturated {d m n c : ℕ} (k : KernelFun d)
    (ts : Fin m → Point d) (xs : Fin n → Point d) (v : Fin n → ℝ)
    (hc : n ≤ c) : nnPredict c k ts xs v = predict k ts xs v := by
  funext t
  unfold nnPredict
  rw [targetNbhd_saturated c ts xs t hc]
  show (∑ j, k (ts t) (xs j) * v j) = (x2cov k ts xs).mulVec v t
  rw [x2cov_eq_specCrossCov]
  rfl

/-- Claim C1 (spec-modelled sparse engine): with `num_neighbors` at least
the training-set size, the nearest-neighbor engine's `loglikelihood`,
`condition`, `compress` and `predict` produce exactly the dense engine's
likelihood, mean and covariance values on identical inputs. -/
theorem nn_matches_dense {d m n c : ℕ} (k : KernelFun d) (o : Fin d)
    (ts : Fin m → Point d) (xs : Fin n → Point d) (f : Fin n → ℝ)
    (hpd : (specSourceCov k xs).PosDef) (hc : n ≤ c) :
    loglikelihood k xs f = some (nnLoglikelihood c o k xs f)
    ∧ nnCondition c k ts xs f = condition k ts xs f
    ∧ nnCompress c o k xs f = compress k xs f
    ∧ nnPredict c k ts xs (nnCompress c o k xs f)
        = predict k ts xs (compress k xs f) := by
  have hpdσ : (specSourceCov k (xs ∘ ⇑(sortPerm fun u => xs u o))).PosDef := by
    rw [specSourceCov_comp_perm]
    exact posDef_submatrix_inj hpd _ (Equiv.injective _)
  refine ⟨?_, nnCondition_eq k ts xs f hc, nnCompress_eq k o xs f hpd hc, ?_⟩
  · rw [← loglikelihood_comp_perm k xs f (sortPerm fun u => xs u o)]
    rw [loglikelihood_eq_gauss_sum hpdσ]
    unfold nnLoglikelihood
    rw [nnLoglikelihoodOrdered_saturated _ _ _ hc]
  · rw [nnCompress_eq k o xs f hpd hc, nnPredict_saturated k ts xs _ hc]

theorem nn_matches_dense_witness :
    (specSourceCov constOneKernel onePoint).PosDef ∧
      (loglikelihood constOneKernel onePoint (fun _ => 1)
          = some (nnLoglikelihood 1 0 constOneKernel onePoint (fun _ => 1))
        ∧ nnCondition 1 constOneKernel onePoint onePoint (fun _ => 1)
            = condition constOneKernel onePoint onePoint (fun _ => 1)
        ∧ nnCompress 1 0 constOneKernel onePoint (fun _ => 1)
            = compress constOneKernel onePoint (fun _ => 1)
        ∧ nnPredict 1 constOneKernel onePoint onePoint
              (nnCompress 1 0 constOneKernel onePoint (fun _ => 1))
            = predict constOneKernel onePoint onePoint
              (compress constOneKernel onePoint (fun _ => 1))) := by
  have hpd : (specSourceCov constOneKernel onePoint).PosDef := by
    constructor
    · ext i j
      rfl
    · intro x hx
      have hx0 : x 0 ≠ 0 := by
        intro h0
        apply hx
        funext a
        rw [Fin.eq_zero a]
        exact h0
      have hval : Matrix.dotProduct (star x)
          ((specSourceCov constOneKernel onePoint).mulVec x) = x 0 * x 0 := by
        show (∑ i, star x i * ∑ j, specSourceCov constOneKernel onePoint i j * x j)
          = x 0 * x 0
        rw [Fin.sum_univ_one, Fin.sum_univ_one]
        show star (x 0) * ((1 : ℝ) * x 0) = x 0 * x 0
        rw [star_trivial, one_mul]
      rw [hval]
      exact mul_self_pos.mpr hx0
  exact ⟨hpd, nn_matches_dense constOneKernel 0 onePoint onePoint _ hpd (le_refl 1)⟩

end Mgpi
